import Mathlib

/-!
# Verification of the wikidata-explorer traversal engine

Shallow embedding of the traversal engine of `src/traverse.py` (and the
`/api/expand` route of `src/app.py`) of the `wikidata-explorer` repository,
together with theorems settling the frozen claims about it.

Conventions of the embedding:
* Python dicts are modelled by `SMap` (an insertion-ordered association
  list with in-place overwrite, matching `dict.__setitem__`); Python sets
  by duplicate-free `List String` with `sadd` modelling `set.add`.
* Network services are oracles: `World` abstracts `sparql_query` (the
  query built from a batch of source qids is represented by the batch
  itself; endpoint, user agent and timeout live inside the oracle, and a
  timeout or transport error is `none`, matching `sparql_query`'s
  `return None`). `Rest` abstracts `get_entity_rest`; `LabelApi`
  abstracts the `wbgetentities` Action-API call of `resolve_labels`,
  returning the `entities` object as a list of (qid, optional en label).
* The module globals `LIMIT_RELATIONS` / `LIMIT_RELATIONS_DEEP` used by
  the per-node strategy are set from the configuration at startup by
  `main()` and by `app.py`; the embedding reads them from `Config`.
* The per-node strategy's `while queue:` loop is driven by a `fuel`
  argument bounding the number of iterations; on exhaustion the current
  accumulators are returned, so invariant theorems quantify over `fuel`.
-/

namespace WikidataExplorer

/-- An edge of the produced graph: (source qid, property id, target qid),
as appended by all three traversal strategies. -/
abbrev Edge := String × String × String

/-- A Python dict with `String` keys: an insertion-ordered association
list; `insert` overwrites in place when the key is present and appends
otherwise, exactly like `dict.__setitem__`. -/
structure SMap (V : Type) where
  entries : List (String × V)
deriving Repr, DecidableEq

/-- The empty dict `{}`. -/
def SMap.empty {V : Type} : SMap V := ⟨[]⟩

/-- Dict lookup, `d.get(k)`: the value of the first (hence, for maps built
by `insert`, the only) entry with key `k`. -/
def SMap.find? {V : Type} (m : SMap V) (k : String) : Option V :=
  (m.entries.find? (fun p => p.1 = k)).map Prod.snd

/-- `k in d`. -/
def SMap.containsKey {V : Type} (m : SMap V) (k : String) : Bool :=
  m.entries.any (fun p => p.1 = k)

/-- Dict assignment `d[k] = v`. -/
def SMap.insert {V : Type} (m : SMap V) (k : String) (v : V) : SMap V :=
  if m.containsKey k then ⟨m.entries.map (fun p => if p.1 = k then (k, v) else p)⟩
  else ⟨m.entries ++ [(k, v)]⟩

/-- Dict lookup with default, `d.get(k, dflt)`. -/
def SMap.getD {V : Type} (m : SMap V) (k : String) (dflt : V) : V :=
  (m.find? k).getD dflt

/-- Insert a list of key/value pairs in order (the loop body shared by
`dict.update` and the per-entry assignments of the source). -/
def SMap.insertList {V : Type} (m : SMap V) (ps : List (String × V)) : SMap V :=
  ps.foldl (fun a p => a.insert p.1 p.2) m

/-- Python `d.update(d2)`: insert every entry of `d2` into `d`, in order. -/
def SMap.update {V : Type} (m m₂ : SMap V) : SMap V :=
  m.insertList m₂.entries

/-- Python `set.add` on a set represented as a duplicate-free
insertion-ordered list. -/
def sadd (s : List String) (x : String) : List String :=
  if x ∈ s then s else s ++ [x]

/-- Python `set.update`. -/
def supdate (s : List String) (xs : List String) : List String :=
  xs.foldl sadd s

/-- The traversal-relevant configuration values of `load_config` (the
loading mechanism itself is out of scope; endpoint addresses and timeouts
are absorbed into the oracles). -/
structure Config where
  limit_relations : Nat
  limit_relations_deep : Nat
  max_entity_sitelinks : Int
  expand_limit : Nat
deriving Repr, DecidableEq

/-- The `value.content` of the first statement of a claim group in the
REST record: a bare string, a JSON object (with an optional `id` field —
a missing `value`/`content` key yields the empty dict, i.e. `obj none`),
or any other JSON value. -/
inductive Content
  | str (s : String)
  | obj (id? : Option String)
  | other
deriving Repr, DecidableEq

/-- A REST entity record as consumed by `parse_entity_relations` and the
hub check of `traverse`: the `statements` mapping (property id to a claim
group, each claim represented by its `value.content`) and the size of the
`sitelinks` object (`len(data.get("sitelinks", {}))`). -/
structure EntityData where
  statements : List (String × List Content)
  sitelinksCount : Nat
deriving Repr, DecidableEq

/-- The target-id extraction of `parse_entity_relations`: a string value
starting with `Q`, or the `id` field of an object value. -/
def targetIdOf : Content → Option String
  | .str s => if s.startsWith "Q" then some s else none
  | .obj i => i
  | .other => none

/-- Python truthiness of `target_id` in `if target_id:`: `None` and the
empty string are falsy. -/
def truthy : Option String → Option String
  | some t => if t = "" then none else some t
  | none => none

/-- The statement loop of `parse_entity_relations`: walk the statement
groups in order, inspect only the first claim of each group, keep the
(property id, target id) pair when the value is a truthy entity
reference, and stop once `limit` pairs have been collected. -/
def parseGo (limit : Nat) :
    List (String × List Content) → Nat → List (String × String) → List String →
    List (String × String) × List String
  | [], _, rels, ids => (rels, ids)
  | (p, grp) :: rest, count, rels, ids =>
    if limit ≤ count then (rels, ids)
    else
      match truthy (targetIdOf (grp.headD (Content.obj none))) with
      | some t => parseGo limit rest (count + 1) (rels ++ [(p, t)]) (sadd (sadd ids p) t)
      | none => parseGo limit rest count rels ids

/-- `parse_entity_relations(data, limit)`: returns
(raw_relations, ids_to_resolve). -/
def parse_entity_relations (data : EntityData) (limit : Nat) :
    List (String × String) × List String :=
  parseGo limit data.statements 0 [] []

/-- One row of a SPARQL result: the bound values of the `SELECT`
variables of `sparql_fetch_level`'s query (`?source ?prop ?target` are
URIs; the label and sitelinks bindings are optional). `sourceSitelinks`
is only produced by the reverse query of `sparql_fetch_reverse`. -/
structure Binding where
  source : String
  prop : String
  target : String
  targetSitelinks : Option String
  sourceLabel : Option String
  propLabel : Option String
  targetLabel : Option String
  sourceSitelinks : Option String
deriving Repr, DecidableEq

/-- `uri.rsplit("/", 1)[-1]`: the part of a URI after its last slash. -/
def qidOf (uri : String) : String :=
  (uri.splitOn "/").getLastD uri

/-- `int(binding.get("targetSitelinks", {}).get("value", 0))` guarded by
`try/except`: an absent binding or an unparsable string gives 0. -/
def parseSitelinks : Option String → Int
  | none => 0
  | some s => s.toInt?.getD 0

/-- The 4-tuple returned by `sparql_fetch_level`:
(edges, label_map, new_target_qids, sitelinks_map). For
`sparql_fetch_reverse`, `new_targets` holds the newly observed source
qids and `sitelinks_map` is keyed by source qid. -/
structure FetchResult where
  edges : List Edge
  label_map : SMap String
  new_targets : List String
  sitelinks_map : SMap Int
deriving Repr, DecidableEq

/-- The empty result returned on an empty input batch or a failed query. -/
def FetchResult.empty : FetchResult := ⟨[], SMap.empty, [], SMap.empty⟩

/-- `d.setdefault(k, 0)`: insert `0` when the key is absent. -/
def setdefault0 (m : SMap Nat) (s : String) : SMap Nat :=
  if (m.find? s).isSome then m else m.insert s 0

/-- The row loop of `sparql_fetch_level`: enforce the per-source cap
client-side (`per_source_count`), and for each accepted row append the
edge, record the target, its sitelinks count, and the three labels
(defaulting to the respective id). -/
def fetchGo (limit : Nat) : List Binding → SMap Nat → FetchResult → FetchResult
  | [], _, acc => acc
  | b :: rows, counts, acc =>
    let s := qidOf b.source
    let p := qidOf b.prop
    let t := qidOf b.target
    let counts1 := setdefault0 counts s
    if limit ≤ counts1.getD s 0 then
      fetchGo limit rows counts1 acc
    else
      fetchGo limit rows (counts1.insert s (counts1.getD s 0 + 1))
        ⟨acc.edges ++ [(s, p, t)],
         ((acc.label_map.insert s (b.sourceLabel.getD s)).insert p
            (b.propLabel.getD p)).insert t (b.targetLabel.getD t),
         sadd acc.new_targets t,
         acc.sitelinks_map.insert t (parseSitelinks b.targetSitelinks)⟩

/-- The graph-query service: a batch of source qids (standing for the
SPARQL query built from them) to either `none` (timeout / transport
error, i.e. `sparql_query` returned `None`) or the result rows. -/
abbrev World := List String → Option (List Binding)

/-- `sparql_fetch_level(source_qids, limit, config)`: one batched SPARQL
query for a whole frontier; empty batch or failed query gives the empty
result, otherwise the rows are folded through the per-source cap. -/
def sparql_fetch_level (w : World) (source_qids : List String) (limit : Nat) :
    FetchResult :=
  if source_qids = [] then FetchResult.empty
  else
    match w source_qids with
    | none => FetchResult.empty
    | some rows => fetchGo limit rows SMap.empty FetchResult.empty

/-- The accumulated traversal state: the quadruple
(edges, all_ids, depth_map, label_map) returned by `traverse_sparql` and
`traverse_hybrid`, plus the internal `visited` set. -/
structure TravState where
  edges : List Edge
  all_ids : List String
  depth_map : SMap Nat
  label_map : SMap String
  visited : List String
deriving Repr, DecidableEq

/-- The body of the `for t in new_targets` loop shared by
`traverse_sparql` and `traverse_hybrid`: an unvisited target is marked
visited and given depth `depth + 1`; it joins the next frontier unless
hub suppression (nonzero threshold, sitelinks count at or above it)
excludes it. The state is (visited, depth_map, next_frontier). -/
def hubStep (thr : Int) (depth : Nat) (sl : SMap Int)
    (st : List String × SMap Nat × List String) (t : String) :
    List String × SMap Nat × List String :=
  if t ∈ st.1 then st
  else
    let visited := sadd st.1 t
    let dm := st.2.1.insert t (depth + 1)
    if 0 < thr ∧ thr ≤ sl.getD t 0 then (visited, dm, st.2.2)
    else (visited, dm, sadd st.2.2 t)

/-- The `for depth in range(...)` loop of `traverse_sparql` (from
depth 0) and of `traverse_hybrid` (from depth 1): `remaining` counts the
iterations left, so the loop of `range(max_depth)` starts with
`remaining = max_depth`. Each level: stop on an empty frontier, fetch the
whole frontier in one batched call with the depth-appropriate cap
(`limit_relations` at depth 0, `limit_relations_deep` deeper — the hybrid
loop only runs at depth ≥ 1, where this agrees with its constant deep
cap), extend the edges and labels, add each edge's property and target to
`all_ids`, and build the next frontier through `hubStep`. -/
def sparqlLoop (w : World) (cfg : Config) :
    Nat → Nat → TravState → List String → TravState
  | 0, _, st, _ => st
  | remaining + 1, depth, st, frontier =>
    if frontier = [] then st
    else
      let limit := if depth = 0 then cfg.limit_relations else cfg.limit_relations_deep
      let fr := sparql_fetch_level w frontier limit
      let all_ids := fr.edges.foldl (fun a e => sadd (sadd a e.2.1) e.2.2) st.all_ids
      let vdf := fr.new_targets.foldl
        (hubStep cfg.max_entity_sitelinks depth fr.sitelinks_map)
        (st.visited, st.depth_map, [])
      sparqlLoop w cfg remaining (depth + 1)
        ⟨st.edges ++ fr.edges, all_ids, vdf.2.1, st.label_map.update fr.label_map, vdf.1⟩
        vdf.2.2

/-- `traverse_sparql(start_qid, start_label, max_depth, config)`: pure
SPARQL BFS, one `sparql_fetch_level` call per depth level. -/
def traverse_sparql (w : World) (start_qid start_label : String)
    (max_depth : Nat) (cfg : Config) : TravState :=
  sparqlLoop w cfg max_depth 0
    ⟨[], [start_qid], SMap.empty.insert start_qid 0,
     SMap.empty.insert start_qid start_label, [start_qid]⟩
    [start_qid]

/-- The single-item REST lookup `get_entity_rest`: `none` models both a
transport/parse failure and a falsy response (`if not data`). -/
abbrev Rest := String → Option EntityData

/-- The `wbgetentities` batch label call of `resolve_labels`: a batch of
ids to either `none` (request or JSON failure, caught by the
`try/except`) or the response's `entities` object, each entity carrying
its optional English label value. -/
abbrev LabelApi := List String → Option (List (String × Option String))

/-- The `for i in range(0, len(qid_list), 50)` slicing of
`resolve_labels`: successive chunks `qid_list[i:i+50]`. -/
def chunks50 (l : List String) : List (List String) :=
  if h : l = [] then []
  else l.take 50 :: chunks50 (l.drop 50)
termination_by l.length
decreasing_by
  simp only [List.length_drop]
  exact Nat.sub_lt (List.length_pos.mpr h) (by omega)

/-- The per-entity loop of `resolve_labels`: for each response entity,
`mapping[qid] = info.get("labels", {}).get("en", {}).get("value", qid)` —
the label defaults to the response qid itself. -/
def procEntities (m : SMap String) (es : List (String × Option String)) :
    SMap String :=
  SMap.insertList m (es.map (fun p => (p.1, p.2.getD p.1)))

/-- One batch iteration of `resolve_labels`: a failed call contributes no
labels (warning only), a successful one inserts every response entity. -/
def procBatch (api : LabelApi) (m : SMap String) (batch : List String) :
    SMap String :=
  match api batch with
  | none => m
  | some es => procEntities m es

/-- `resolve_labels(qids)`: batch-resolve ids to labels, 50 per
underlying Action-API call (one `procBatch` per element of
`chunks50`). -/
def resolve_labels (api : LabelApi) (qids : List String) : SMap String :=
  (chunks50 qids).foldl (procBatch api) SMap.empty

/-- The `for prop_id, target_qid in raw_relations` loop of
`traverse_hybrid`'s REST level: append the root edge, and mark each
unvisited target visited at depth 1 and part of the SPARQL frontier.
The state is (edges, visited, depth_map, frontier). -/
def hybridRootStep (start_qid : String)
    (st : List Edge × List String × SMap Nat × List String)
    (pt : String × String) :
    List Edge × List String × SMap Nat × List String :=
  let es := st.1 ++ [(start_qid, pt.1, pt.2)]
  if pt.2 ∈ st.2.1 then (es, st.2.1, st.2.2.1, st.2.2.2)
  else (es, sadd st.2.1 pt.2, st.2.2.1.insert pt.2 1, sadd st.2.2.2 pt.2)

/-- `traverse_hybrid(start_qid, start_label, max_depth, config)`:
depth 0 fetches the root over REST (relations parsed with the shallow
cap, labels resolved through `resolve_labels`); depths `1..max_depth-1`
run the batched SPARQL loop on the carried-forward state. -/
def traverse_hybrid (rest : Rest) (api : LabelApi) (w : World)
    (start_qid start_label : String) (max_depth : Nat) (cfg : Config) :
    TravState :=
  let st0 : TravState :=
    ⟨[], [start_qid], SMap.empty.insert start_qid 0,
     SMap.empty.insert start_qid start_label, [start_qid]⟩
  match rest start_qid with
  | none => st0
  | some data =>
    let pr := parse_entity_relations data cfg.limit_relations
    let all_ids := supdate st0.all_ids pr.2
    let evdf := pr.1.foldl (hybridRootStep start_qid)
      ([], st0.visited, st0.depth_map, [])
    let label_map := st0.label_map.update (resolve_labels api pr.2)
    sparqlLoop w cfg (max_depth - 1) 1
      ⟨evdf.1, all_ids, evdf.2.2.1, label_map, evdf.2.1⟩
      evdf.2.2.2

/-- The `for prop_id, target_id in raw_relations` loop of the per-node
`traverse`: append the edge; an unvisited target is marked visited at
depth `d + 1` and enqueued only when `d + 1 < max_depth`. The state is
(edges, visited, depth_map, enqueued). -/
def restInnerStep (max_depth : Nat) (q : String) (d : Nat)
    (st : List Edge × List String × SMap Nat × List (String × Nat))
    (pt : String × String) :
    List Edge × List String × SMap Nat × List (String × Nat) :=
  let es := st.1 ++ [(q, pt.1, pt.2)]
  if pt.2 ∈ st.2.1 then (es, st.2.1, st.2.2.1, st.2.2.2)
  else
    let visited := sadd st.2.1 pt.2
    let dm := st.2.2.1.insert pt.2 (d + 1)
    if d + 1 < max_depth then (es, visited, dm, st.2.2.2 ++ [(pt.2, d + 1)])
    else (es, visited, dm, st.2.2.2)

/-- The `while queue:` loop of the per-node `traverse`, driven by `fuel`
(on exhaustion the current accumulators are returned; every invariant
below holds for every `fuel`). At each pop: fetch the node over REST
(a failed fetch skips it); for a non-root node with a nonzero threshold,
a sitelinks count at or above the threshold skips its expansion entirely;
otherwise its relations are parsed with the depth-appropriate cap, their
ids joined into `all_ids`, and the inner loop appends edges and enqueues
fresh targets at the queue's tail. -/
def restLoop (rest : Rest) (cfg : Config) (max_depth : Nat) :
    Nat → List (String × Nat) → List String → SMap Nat → List Edge →
    List String → List Edge × List String × SMap Nat
  | 0, _, _, dm, edges, all_ids => (edges, all_ids, dm)
  | _ + 1, [], _, dm, edges, all_ids => (edges, all_ids, dm)
  | fuel + 1, (q, d) :: queue, visited, dm, edges, all_ids =>
    let limit := if d = 0 then cfg.limit_relations else cfg.limit_relations_deep
    match rest q with
    | none => restLoop rest cfg max_depth fuel queue visited dm edges all_ids
    | some data =>
      if 0 < cfg.max_entity_sitelinks ∧ 0 < d ∧
          cfg.max_entity_sitelinks ≤ (data.sitelinksCount : Int) then
        restLoop rest cfg max_depth fuel queue visited dm edges all_ids
      else
        let pr := parse_entity_relations data limit
        let all_ids := supdate all_ids pr.2
        let evdq := pr.1.foldl (restInnerStep max_depth q d) (edges, visited, dm, [])
        restLoop rest cfg max_depth fuel (queue ++ evdq.2.2.2) evdq.2.1 evdq.2.2.1
          evdq.1 all_ids

/-- `traverse(start_qid, start_label, max_depth, config)`: classic BFS
over per-node REST fetches; returns (edges, all_ids, depth_map). -/
def traverse (rest : Rest) (cfg : Config) (start_qid start_label : String)
    (max_depth : Nat) (fuel : Nat) : List Edge × List String × SMap Nat :=
  restLoop rest cfg max_depth fuel [(start_qid, 0)] [start_qid]
    (SMap.empty.insert start_qid 0) [] [start_qid]

/-- Modelled from the spec: `sparql_fetch_reverse` is invoked by
`app.py`'s `/api/expand` route (`traverse.sparql_fetch_reverse`) but its
definition is not under `src/`; per spec §4.4 it is "a reverse variant of
the same fetcher [that] answers which sources point at this target", and
`/api/expand` reads its popularity map by source qid. It mirrors
`sparql_fetch_level` with the source/target roles swapped: the per-target
cap is enforced client-side, the newly observed set collects source qids,
and the popularity map is keyed by source qid (`sourceSitelinks`). -/
def fetchReverseGo (limit : Nat) :
    List Binding → SMap Nat → FetchResult → FetchResult
  | [], _, acc => acc
  | b :: rows, counts, acc =>
    let s := qidOf b.source
    let p := qidOf b.prop
    let t := qidOf b.target
    let counts1 := setdefault0 counts t
    if limit ≤ counts1.getD t 0 then
      fetchReverseGo limit rows counts1 acc
    else
      fetchReverseGo limit rows (counts1.insert t (counts1.getD t 0 + 1))
        ⟨acc.edges ++ [(s, p, t)],
         ((acc.label_map.insert s (b.sourceLabel.getD s)).insert p
            (b.propLabel.getD p)).insert t (b.targetLabel.getD t),
         sadd acc.new_targets s,
         acc.sitelinks_map.insert s (parseSitelinks b.sourceSitelinks)⟩

/-- Modelled from the spec (§4.4): the reverse batched fetcher. Given a
set of target qids, a per-target cap and a configuration (endpoint and
timeout absorbed into the reverse-query oracle), it returns the edges
whose sources point at those targets together with labels, the newly
observed source qids, and popularity counts for the sources. -/
def sparql_fetch_reverse (w : World) (target_qids : List String)
    (limit : Nat) : FetchResult :=
  if target_qids = [] then FetchResult.empty
  else
    match w target_qids with
    | none => FetchResult.empty
    | some rows => fetchReverseGo limit rows SMap.empty FetchResult.empty

/-- A Cytoscape node as built by `app.py`'s `/api/expand`
(`{"data": {...}}`). -/
structure CyNode where
  id : String
  label : String
  depth : Int
  sitelinks : Int
deriving Repr, DecidableEq

/-- A Cytoscape edge as built by `app.py`'s `/api/expand`. -/
structure CyEdge where
  source : String
  target : String
  label : String
  property : String
deriving Repr, DecidableEq

/-- The forward loop of `/api/expand`: new nodes are the targets. -/
def expandFwdStep (lm : SMap String) (sl : SMap Int)
    (st : List CyNode × List CyEdge × List String) (e : Edge) :
    List CyNode × List CyEdge × List String :=
  let ns := if e.2.2 ∈ st.2.2 then st.1
    else st.1 ++ [⟨e.2.2, lm.getD e.2.2 e.2.2, -1, sl.getD e.2.2 0⟩]
  (ns, st.2.1 ++ [⟨e.1, e.2.2, lm.getD e.2.1 e.2.1, e.2.1⟩], sadd st.2.2 e.2.2)

/-- The reverse loop of `/api/expand`: new nodes are the sources. -/
def expandRevStep (lm : SMap String) (sl : SMap Int)
    (st : List CyNode × List CyEdge × List String) (e : Edge) :
    List CyNode × List CyEdge × List String :=
  let ns := if e.1 ∈ st.2.2 then st.1
    else st.1 ++ [⟨e.1, lm.getD e.1 e.1, -1, sl.getD e.1 0⟩]
  (ns, st.2.1 ++ [⟨e.1, e.2.2, lm.getD e.2.1 e.2.1, e.2.1⟩], sadd st.2.2 e.1)

/-- `app.py`'s `/api/expand` route body (after input validation): one
forward `sparql_fetch_level` call and one `sparql_fetch_reverse` call on
the single-node batch `{qid}` with the `expand_limit` cap, label maps
merged (`{**fwd_labels, **rev_labels}`), and the Cytoscape node/edge
lists built by the two loops. -/
def api_expand (wf : World) (wr : World) (cfg : Config) (qid : String) :
    List CyNode × List CyEdge :=
  let fwd := sparql_fetch_level wf [qid] cfg.expand_limit
  let rev := sparql_fetch_reverse wr [qid] cfg.expand_limit
  let label_map := fwd.label_map.update rev.label_map
  let st1 := fwd.edges.foldl (expandFwdStep label_map fwd.sitelinks_map)
    ([], [], [])
  let st2 := rev.edges.foldl (expandRevStep label_map rev.sitelinks_map)
    st1
  (st2.1, st2.2.1)

/-! ## Association-list and set lemmas -/

/-- First-match lookup on a raw entry list (the list view of
`SMap.find?`). -/
def lookupL {V : Type} (es : List (String × V)) (k : String) : Option V :=
  (es.find? (fun p => p.1 = k)).map Prod.snd

/-- Last-match lookup on a raw entry list: the value of the latest write
for a key in a write sequence. -/
def lookupLast {V : Type} (es : List (String × V)) (k : String) : Option V :=
  lookupL es.reverse k

theorem SMap.find?_eq_lookupL {V : Type} (m : SMap V) (k : String) :
    m.find? k = lookupL m.entries k := rfl

theorem lookupL_nil {V : Type} (k : String) : lookupL ([] : List (String × V)) k = none := rfl

theorem lookupL_cons {V : Type} (a : String × V) (es : List (String × V)) (k : String) :
    lookupL (a :: es) k = if a.1 = k then some a.2 else lookupL es k := by
  by_cases h : a.1 = k
  · simp [lookupL, List.find?_cons_of_pos, h]
  · simp [lookupL, List.find?_cons_of_neg, h]

theorem lookupL_append {V : Type} (es fs : List (String × V)) (k : String) :
    lookupL (es ++ fs) k =
      match lookupL es k with
      | some v => some v
      | none => lookupL fs k := by
  induction es with
  | nil => simp [lookupL_nil]
  | cons a es ih =>
    by_cases h : a.1 = k <;> simp [lookupL_cons, h, ih]

theorem SMap.containsKey_eq_true_iff {V : Type} (m : SMap V) (k : String) :
    m.containsKey k = true ↔ lookupL m.entries k ≠ none := by
  unfold SMap.containsKey
  induction m.entries with
  | nil => simp [lookupL_nil]
  | cons a es ih =>
    by_cases h : a.1 = k <;> simp [lookupL_cons, h, ih]

theorem lookupL_map_overwrite_self {V : Type} (es : List (String × V)) (k : String) (v : V)
    (h : lookupL es k ≠ none) :
    lookupL (es.map (fun p => if p.1 = k then (k, v) else p)) k = some v := by
  induction es with
  | nil => simp [lookupL_nil] at h
  | cons a es ih =>
    by_cases ha : a.1 = k
    · simp [lookupL_cons, ha]
    · simp only [lookupL_cons, ha, if_false, ne_eq] at h
      simp [lookupL_cons, ha, ih h]

theorem lookupL_map_overwrite_ne {V : Type} (es : List (String × V)) (k k' : String) (v : V)
    (hk : k' ≠ k) :
    lookupL (es.map (fun p => if p.1 = k then (k, v) else p)) k' = lookupL es k' := by
  induction es with
  | nil => simp [lookupL_nil]
  | cons a es ih =>
    by_cases ha : a.1 = k
    · have hak : a.1 ≠ k' := by rw [ha]; exact fun hh => hk hh.symm
      have hkk : ¬(k = k') := fun hh => hk hh.symm
      simp [lookupL_cons, ha, hak, hkk, ih]
    · simp [lookupL_cons, ha, ih]

/-- The dict-assignment law: after `m[k] = v`, looking up `k` gives `v`
and every other key is unchanged. -/
theorem SMap.find?_insert {V : Type} (m : SMap V) (k : String) (v : V) (k' : String) :
    (m.insert k v).find? k' = if k' = k then some v else m.find? k' := by
  unfold SMap.insert
  by_cases hc : m.containsKey k
  · rw [if_pos hc]
    by_cases hk : k' = k
    · simp only [SMap.find?_eq_lookupL, if_pos hk, hk]
      exact lookupL_map_overwrite_self _ _ _ ((m.containsKey_eq_true_iff k).mp hc)
    · simp only [SMap.find?_eq_lookupL, if_neg hk]
      exact lookupL_map_overwrite_ne _ _ _ _ hk
  · rw [if_neg hc]
    have hnone : lookupL m.entries k = none := by
      by_contra hne
      exact hc ((m.containsKey_eq_true_iff k).mpr hne)
    by_cases hk : k' = k
    · subst hk
      simp [SMap.find?_eq_lookupL, lookupL_append, hnone, lookupL_cons]
    · have hkk : ¬(k = k') := fun hh => hk hh.symm
      simp only [SMap.find?_eq_lookupL, if_neg hk, lookupL_append]
      cases h : lookupL m.entries k'
      · simp [lookupL_cons, hkk, lookupL_nil]
      · rfl

theorem SMap.find?_insert_self {V : Type} (m : SMap V) (k : String) (v : V) :
    (m.insert k v).find? k = some v := by
  simp [SMap.find?_insert]

theorem SMap.find?_insert_ne {V : Type} (m : SMap V) (k : String) (v : V) (k' : String)
    (h : k' ≠ k) : (m.insert k v).find? k' = m.find? k' := by
  simp [SMap.find?_insert, h]

theorem SMap.find?_empty {V : Type} (k : String) : (SMap.empty : SMap V).find? k = none := rfl

theorem SMap.getD_insert_self {V : Type} (m : SMap V) (k : String) (v d : V) :
    (m.insert k v).getD k d = v := by
  simp [SMap.getD, SMap.find?_insert_self]

theorem SMap.getD_insert_ne {V : Type} (m : SMap V) (k : String) (v : V) (k' : String) (d : V)
    (h : k' ≠ k) : (m.insert k v).getD k' d = m.getD k' d := by
  simp [SMap.getD, SMap.find?_insert_ne _ _ _ _ h]

theorem SMap.isSome_insert {V : Type} (m : SMap V) (k : String) (v : V) (k' : String)
    (h : (m.find? k').isSome) : ((m.insert k v).find? k').isSome := by
  by_cases hk : k' = k
  · subst hk; simp [SMap.find?_insert_self]
  · rwa [SMap.find?_insert_ne _ _ _ _ hk]

theorem SMap.isSome_insert_iff {V : Type} (m : SMap V) (k : String) (v : V) (k' : String) :
    ((m.insert k v).find? k').isSome = true ↔ k' = k ∨ (m.find? k').isSome = true := by
  rw [SMap.find?_insert]
  by_cases h : k' = k <;> simp [h]

theorem mem_sadd {s : List String} {x y : String} :
    x ∈ sadd s y ↔ x = y ∨ x ∈ s := by
  unfold sadd
  by_cases h : y ∈ s
  · simp only [if_pos h]
    constructor
    · exact fun hx => Or.inr hx
    · rintro (rfl | hx)
      · exact h
      · exact hx
  · simp [if_neg h, or_comm]

theorem subset_sadd (s : List String) (y : String) : s ⊆ sadd s y :=
  fun _ hx => mem_sadd.mpr (Or.inr hx)

theorem mem_sadd_self (s : List String) (y : String) : y ∈ sadd s y :=
  mem_sadd.mpr (Or.inl rfl)

theorem mem_supdate {s : List String} {xs : List String} {x : String} :
    x ∈ supdate s xs ↔ x ∈ s ∨ x ∈ xs := by
  unfold supdate
  induction xs generalizing s with
  | nil => simp
  | cons a xs ih =>
    simp only [List.foldl_cons, ih, mem_sadd, List.mem_cons]
    tauto

theorem subset_supdate (s xs : List String) : s ⊆ supdate s xs :=
  fun _ hx => mem_supdate.mpr (Or.inl hx)

theorem lookupL_eq_none_iff {V : Type} (es : List (String × V)) (k : String) :
    lookupL es k = none ↔ ∀ p ∈ es, p.1 ≠ k := by
  induction es with
  | nil => simp [lookupL_nil]
  | cons a es ih =>
    by_cases h : a.1 = k <;> simp [lookupL_cons, h, ih]

theorem lookupLast_nil {V : Type} (k : String) :
    lookupLast ([] : List (String × V)) k = none := rfl

theorem lookupLast_cons {V : Type} (a : String × V) (es : List (String × V)) (k : String) :
    lookupLast (a :: es) k =
      match lookupLast es k with
      | some v => some v
      | none => if a.1 = k then some a.2 else none := by
  unfold lookupLast
  simp only [List.reverse_cons, lookupL_append]
  cases lookupL es.reverse k <;> simp [lookupL_cons, lookupL_nil]

theorem lookupLast_eq_none_iff {V : Type} (es : List (String × V)) (k : String) :
    lookupLast es k = none ↔ ∀ p ∈ es, p.1 ≠ k := by
  unfold lookupLast
  rw [lookupL_eq_none_iff]
  constructor
  · exact fun h p hp => h p (List.mem_reverse.mpr hp)
  · exact fun h p hp => h p (List.mem_reverse.mp hp)

/-- The overlay law of a write sequence: looking up in
`insertList m ps` gives the last write for the key in `ps`, else the old
value in `m`. -/
theorem SMap.find?_insertList {V : Type} (ps : List (String × V)) (m : SMap V) (k : String) :
    (SMap.insertList m ps).find? k =
      match lookupLast ps k with
      | some v => some v
      | none => m.find? k := by
  induction ps generalizing m with
  | nil => simp [SMap.insertList, lookupLast_nil]
  | cons a ps ih =>
    show (SMap.insertList (m.insert a.1 a.2) ps).find? k = _
    rw [ih, lookupLast_cons]
    cases h : lookupLast ps k
    · simp only []
      rw [SMap.find?_insert]
      by_cases hk : k = a.1
      · simp [hk]
      · have : a.1 ≠ k := fun hh => hk hh.symm
        simp [hk, this]
    · rfl

/-- Key distinctness of every map built by repeated `insert` from a
key-distinct map (Python dicts have unique keys). -/
def SMap.KeysNodup {V : Type} (m : SMap V) : Prop :=
  (m.entries.map Prod.fst).Nodup

theorem SMap.keysNodup_empty {V : Type} : (SMap.empty : SMap V).KeysNodup := by
  simp [SMap.KeysNodup, SMap.empty]

theorem SMap.keysNodup_insert {V : Type} (m : SMap V) (k : String) (v : V)
    (h : m.KeysNodup) : (m.insert k v).KeysNodup := by
  unfold SMap.insert
  by_cases hc : m.containsKey k
  · rw [if_pos hc]
    unfold SMap.KeysNodup at h ⊢
    have : (m.entries.map (fun p => if p.1 = k then (k, v) else p)).map Prod.fst
        = m.entries.map Prod.fst := by
      rw [List.map_map]
      apply List.map_congr_left
      intro p _
      by_cases hp : p.1 = k <;> simp [hp]
    rwa [this]
  · rw [if_neg hc]
    unfold SMap.KeysNodup at h ⊢
    have hk : k ∉ m.entries.map Prod.fst := by
      intro hmem
      rcases List.mem_map.mp hmem with ⟨p, hp, hpk⟩
      have : lookupL m.entries k ≠ none := by
        intro hnone
        exact ((lookupL_eq_none_iff _ _).mp hnone) p hp hpk
      exact hc ((m.containsKey_eq_true_iff k).mpr this)
    simp [List.nodup_append, h, hk]

theorem SMap.keysNodup_insertList {V : Type} (ps : List (String × V)) (m : SMap V)
    (h : m.KeysNodup) : (SMap.insertList m ps).KeysNodup := by
  induction ps generalizing m with
  | nil => exact h
  | cons a ps ih => exact ih _ (m.keysNodup_insert a.1 a.2 h)

/-- With distinct keys, first-match and last-match lookup agree. -/
theorem lookupLast_eq_lookupL_of_nodup {V : Type} (es : List (String × V)) (k : String)
    (h : (es.map Prod.fst).Nodup) : lookupLast es k = lookupL es k := by
  induction es with
  | nil => rfl
  | cons a es ih =>
    simp only [List.map_cons, List.nodup_cons] at h
    rw [lookupLast_cons, lookupL_cons, ih h.2]
    by_cases hk : a.1 = k
    · have : lookupL es k = none := by
        rw [lookupL_eq_none_iff]
        intro p hp hpk
        apply h.1
        rw [hk, ← hpk]
        exact List.mem_map_of_mem Prod.fst hp
      simp [this, hk]
    · cases hl : lookupL es k <;> simp [hk]

/-- Updating with a key-distinct map overlays its mapping. -/
theorem SMap.find?_update {V : Type} (m m₂ : SMap V) (k : String) (h : m₂.KeysNodup) :
    (m.update m₂).find? k =
      match m₂.find? k with
      | some v => some v
      | none => m.find? k := by
  unfold SMap.update
  rw [SMap.find?_insertList, lookupLast_eq_lookupL_of_nodup _ _ h,
    ← SMap.find?_eq_lookupL]

/-! ## Chunking lemmas for the label resolver -/

theorem chunks50_nil : chunks50 [] = [] := by
  rw [chunks50]
  exact dif_pos rfl

theorem chunks50_cons (l : List String) (h : l ≠ []) :
    chunks50 l = l.take 50 :: chunks50 (l.drop 50) := by
  rw [chunks50, dif_neg h]

theorem chunks50_sound (l : List String) :
    ∀ c ∈ chunks50 l, c ≠ [] ∧ c.length ≤ 50 := by
  induction l using chunks50.induct with
  | case1 => simp [chunks50_nil]
  | case2 l h ih =>
    rw [chunks50_cons l h]
    intro c hc
    rcases List.mem_cons.mp hc with rfl | hc
    · constructor
      · simp only [ne_eq, List.take_eq_nil_iff]
        intro hx
        rcases hx with hx | hx
        · omega
        · exact h hx
      · simp [List.length_take]
    · exact ih c hc

theorem chunks50_length (l : List String) :
    (chunks50 l).length = (l.length + 49) / 50 := by
  induction l using chunks50.induct with
  | case1 => simp [chunks50_nil]
  | case2 l h ih =>
    rw [chunks50_cons l h]
    have hpos : 0 < l.length := List.length_pos.mpr h
    simp only [List.length_cons, ih, List.length_drop]
    omega

theorem chunks50_map_length_120 (l : List String) (h : l.length = 120) :
    (chunks50 l).map List.length = [50, 50, 20] := by
  have h1 : l ≠ [] := by intro hx; rw [hx] at h; simp at h
  have h2 : l.drop 50 ≠ [] := by
    intro hx
    have := congrArg List.length hx
    simp [List.length_drop, h] at this
  have h3 : (l.drop 50).drop 50 ≠ [] := by
    intro hx
    have := congrArg List.length hx
    simp [List.length_drop, h] at this
  have h4 : ((l.drop 50).drop 50).drop 50 = [] := by
    apply List.eq_nil_of_length_eq_zero
    simp [List.length_drop, h]
  rw [chunks50_cons l h1, chunks50_cons _ h2, chunks50_cons _ h3, h4, chunks50_nil]
  simp [List.length_take, List.length_drop, h]

/-- Modelled from the spec (§8, "issuing ceiling-sized calls manually"):
a comparison-side definition that resolves each 50-chunk with its own
`resolve_labels` call and merges the per-call mappings in order. -/
def resolve_labels_manual (api : LabelApi) (qids : List String) : SMap String :=
  (chunks50 qids).foldl (fun acc c => acc.update (resolve_labels api c)) SMap.empty

theorem keysNodup_procEntities (es : List (String × Option String)) :
    (procEntities SMap.empty es).KeysNodup :=
  SMap.keysNodup_insertList _ _ SMap.keysNodup_empty

theorem keysNodup_procBatch (api : LabelApi) (c : List String) :
    (procBatch api SMap.empty c).KeysNodup := by
  unfold procBatch
  cases api c with
  | none => exact SMap.keysNodup_empty
  | some es => exact keysNodup_procEntities es

/-- One batch step and the manual overlay of its standalone result agree
pointwise. -/
theorem find?_procBatch_update (api : LabelApi) (c : List String)
    (m₁ m₂ : SMap String) (hbase : ∀ k, m₁.find? k = m₂.find? k) (k : String) :
    (procBatch api m₁ c).find? k = (m₂.update (procBatch api SMap.empty c)).find? k := by
  rw [SMap.find?_update _ _ _ (keysNodup_procBatch api c)]
  unfold procBatch
  cases api c with
  | none =>
    simp only [SMap.find?_empty]
    exact hbase k
  | some es =>
    unfold procEntities
    rw [SMap.find?_insertList, SMap.find?_insertList]
    cases lookupLast (es.map (fun p => (p.1, p.2.getD p.1))) k
    · simp only [SMap.find?_empty]
      exact hbase k
    · rfl

theorem find?_foldl_procBatch (api : LabelApi) (cs : List (List String))
    (m₁ m₂ : SMap String) (hbase : ∀ k, m₁.find? k = m₂.find? k) (k : String) :
    (cs.foldl (procBatch api) m₁).find? k =
      (cs.foldl (fun acc c => acc.update (procBatch api SMap.empty c)) m₂).find? k := by
  induction cs generalizing m₁ m₂ with
  | nil => exact hbase k
  | cons c cs ih =>
    exact ih _ _ (fun k' => find?_procBatch_update api c m₁ m₂ hbase k')

/-- Fold congruence for functions agreeing on the list's members. -/
theorem foldl_congr_mem {α β : Type} (l : List α) (f g : β → α → β) (b : β)
    (h : ∀ b' a, a ∈ l → f b' a = g b' a) : l.foldl f b = l.foldl g b := by
  induction l generalizing b with
  | nil => rfl
  | cons a l ih =>
    simp only [List.foldl_cons]
    rw [h b a (List.mem_cons_self a l)]
    exact ih _ (fun b' x hx => h b' x (List.mem_cons_of_mem a hx))

theorem resolve_labels_singleChunk (api : LabelApi) (c : List String)
    (h0 : c ≠ []) (h50 : c.length ≤ 50) :
    resolve_labels api c = procBatch api SMap.empty c := by
  unfold resolve_labels
  rw [chunks50_cons c h0, List.drop_eq_nil_of_le h50, chunks50_nil,
    List.take_of_length_le h50]
  rfl

/-- C5 — `resolve_labels` partitions its input into ceil(n/50) chunks of
at most 50 ids (sizes 50, 50, 20 for n = 120, one underlying batch call
per chunk), and the merged mapping it returns agrees pointwise with
merging the results of separate ceiling-sized `resolve_labels` calls. -/
theorem resolve_labels_chunking (api : LabelApi) (l : List String) :
    ((chunks50 l).length = (l.length + 49) / 50 ∧
      ∀ c ∈ chunks50 l, c.length ≤ 50) ∧
    (l.length = 120 → (chunks50 l).map List.length = [50, 50, 20]) ∧
    (∀ k, (resolve_labels api l).find? k = (resolve_labels_manual api l).find? k) := by
  refine ⟨⟨chunks50_length l, fun c hc => (chunks50_sound l c hc).2⟩,
    chunks50_map_length_120 l, ?_⟩
  intro k
  unfold resolve_labels resolve_labels_manual
  have : ∀ c ∈ chunks50 l, resolve_labels api c = procBatch api SMap.empty c := by
    intro c hc
    exact resolve_labels_singleChunk api c (chunks50_sound l c hc).1
      (chunks50_sound l c hc).2
  rw [foldl_congr_mem (chunks50 l)
    (fun acc c => acc.update (resolve_labels api c))
    (fun acc c => acc.update (procBatch api SMap.empty c)) SMap.empty
    (fun b' c hc => by simp only []; rw [this c hc])]
  exact find?_foldl_procBatch api (chunks50 l) SMap.empty SMap.empty (fun _ => rfl) k

/-- C5 witness: a concrete 120-id input, with the hypothesis of the
middle conjunct discharged. -/
theorem resolve_labels_chunking_witness :
    (chunks50 ((List.range 120).map (fun i => toString i))).map List.length
      = [50, 50, 20] :=
  ((resolve_labels_chunking (fun _ => none)
    ((List.range 120).map (fun i => toString i))).2.1) (by simp)

/-! ## C6 — labels missing from the external source -/

/-- A label-service response that lists `Q1` in its `entities` object but
carries no English label for it (the `labels.en.value` path is absent). -/
def labelApiNoEn : LabelApi := fun b =>
  if b = ["Q1"] then some [("Q1", none)] else none

theorem chunks50_q1 : chunks50 ["Q1"] = [["Q1"]] := by
  rw [chunks50_cons _ (by simp)]
  simp [chunks50_nil]

/-- C6 counterexample — the claim "an id that has no label in the
external source is absent from the mapping returned by `resolve_labels`
... no id is ever mapped to itself as a default by the resolver" is
false on the code: line 116 of `traverse.py` defaults the label to the
response qid (`.get("value", qid)`) and line 117 inserts it, so for input
`["Q1"]` with a response listing `Q1` without an English label the
resolver maps `Q1` to itself (in particular `Q1` is not absent). -/
theorem resolve_labels_self_default_counterexample :
    (resolve_labels labelApiNoEn ["Q1"]).find? "Q1" = some "Q1" ∧
      ¬((resolve_labels labelApiNoEn ["Q1"]).find? "Q1" = none) := by
  have h : (resolve_labels labelApiNoEn ["Q1"]).find? "Q1" = some "Q1" := by
    unfold resolve_labels
    rw [chunks50_q1]
    rfl
  exact ⟨h, by rw [h]; simp⟩

/-- C6 amended — an id listed in no batch response is absent from the
returned mapping; but an id listed in a response *without* an English
label is mapped to itself by the resolver (the `.get("value", qid)`
default), so it is present rather than absent, and only ids the
responses omit entirely need the caller's id-as-label fallback. -/
theorem resolve_labels_absent_amended (api : LabelApi) (qids : List String)
    (k : String) (m : SMap String) (lab : Option String)
    (habsent : ∀ c ∈ chunks50 qids, ∀ r, api c = some r → ∀ p ∈ r, p.1 ≠ k) :
    (resolve_labels api qids).find? k = none ∧
      (procEntities m [(k, none)]).find? k = some k ∧
      (procEntities m [(k, lab)]).find? k = some (lab.getD k) := by
  refine ⟨?_, ?_, ?_⟩
  · unfold resolve_labels
    have : ∀ (cs : List (List String)) (m₀ : SMap String),
        (∀ c ∈ cs, ∀ r, api c = some r → ∀ p ∈ r, p.1 ≠ k) →
        m₀.find? k = none → (cs.foldl (procBatch api) m₀).find? k = none := by
      intro cs
      induction cs with
      | nil => exact fun m₀ _ h0 => h0
      | cons c cs ih =>
        intro m₀ hcs h0
        simp only [List.foldl_cons]
        apply ih
        · exact fun c' hc' => hcs c' (List.mem_cons_of_mem c hc')
        · unfold procBatch
          cases hr : api c with
          | none => exact h0
          | some es =>
            unfold procEntities
            rw [SMap.find?_insertList]
            have : lookupLast (es.map (fun p => (p.1, p.2.getD p.1))) k = none := by
              rw [lookupLast_eq_none_iff]
              intro p hp
              rcases List.mem_map.mp hp with ⟨p₀, hp₀, rfl⟩
              exact hcs c (List.mem_cons_self c cs) es hr p₀ hp₀
            rw [this]
            exact h0
    exact this (chunks50 qids) SMap.empty habsent rfl
  · unfold procEntities
    simp only [List.map_cons, List.map_nil, Option.getD_none]
    exact SMap.find?_insert_self m k k
  · unfold procEntities
    simp only [List.map_cons, List.map_nil]
    exact SMap.find?_insert_self m k (lab.getD k)

/-- C6 amended witness: with an api that never answers, every id is
absent from the mapping, and a listed id without a label maps to
itself. -/
theorem resolve_labels_absent_amended_witness :
    (resolve_labels (fun _ => none) ["Q7"]).find? "Q7" = none ∧
      (procEntities SMap.empty [("Q7", none)]).find? "Q7" = some "Q7" ∧
      (procEntities SMap.empty [("Q7", none)]).find? "Q7" = some (Option.getD none "Q7") :=
  resolve_labels_absent_amended (fun _ => none) ["Q7"] "Q7" SMap.empty none
    (fun _ _ _ h => by exact absurd h (by simp))

/-! ## C7 — malformed relations are skipped individually -/

theorem parseGo_cons (limit : Nat) (p : String) (grp : List Content)
    (rest : List (String × List Content)) (c : Nat)
    (rels : List (String × String)) (ids : List String) :
    parseGo limit ((p, grp) :: rest) c rels ids =
      if limit ≤ c then (rels, ids)
      else
        match truthy (targetIdOf (grp.headD (Content.obj none))) with
        | some t => parseGo limit rest (c + 1) (rels ++ [(p, t)]) (sadd (sadd ids p) t)
        | none => parseGo limit rest c rels ids := rfl

theorem parseGo_stop (limit : Nat) (stmts : List (String × List Content))
    (c : Nat) (rels : List (String × String)) (ids : List String)
    (h : limit ≤ c) : parseGo limit stmts c rels ids = (rels, ids) := by
  cases stmts with
  | nil => rfl
  | cons a rest =>
    rcases a with ⟨p, grp⟩
    unfold parseGo
    rw [if_pos h]

/-- C7 — a statement whose first claim's value is not a (truthy) entity
reference is skipped on its own: removing it from the record leaves
`parse_entity_relations` unchanged for every surrounding record content,
so the remaining relations are still extracted and the record never
fails as a whole. -/
theorem parse_entity_relations_skips_malformed (limit : Nat) (p : String)
    (grp : List Content) (pre post : List (String × List Content))
    (sl : Nat) (hbad : truthy (targetIdOf (grp.headD (Content.obj none))) = none) :
    parse_entity_relations ⟨pre ++ (p, grp) :: post, sl⟩ limit =
      parse_entity_relations ⟨pre ++ post, sl⟩ limit := by
  unfold parse_entity_relations
  show parseGo limit (pre ++ (p, grp) :: post) 0 [] [] =
    parseGo limit (pre ++ post) 0 [] []
  have main : ∀ (pre : List (String × List Content)) (c : Nat)
      (rels : List (String × String)) (ids : List String),
      parseGo limit (pre ++ (p, grp) :: post) c rels ids =
        parseGo limit (pre ++ post) c rels ids := by
    intro pre
    induction pre with
    | nil =>
      intro c rels ids
      by_cases hc : limit ≤ c
      · rw [parseGo_stop limit _ c rels ids hc, parseGo_stop limit _ c rels ids hc]
      · simp only [List.nil_append]
        rw [parseGo_cons, if_neg hc, hbad]
    | cons a pre ih =>
      intro c rels ids
      rcases a with ⟨p₀, grp₀⟩
      by_cases hc : limit ≤ c
      · rw [parseGo_stop limit _ c rels ids hc, parseGo_stop limit _ c rels ids hc]
      · simp only [List.cons_append]
        rw [parseGo_cons, parseGo_cons, if_neg hc, if_neg hc]
        cases h : truthy (targetIdOf (grp₀.headD (Content.obj none))) with
        | none => exact ih c rels ids
        | some t => exact ih (c + 1) (rels ++ [(p₀, t)]) (sadd (sadd ids p₀) t)
  exact main pre 0 [] []

/-- C7 witness: a record with a malformed middle statement (an object
value with no `id` field) parses exactly like the record without it. -/
theorem parse_entity_relations_skips_malformed_witness :
    parse_entity_relations
        ⟨[("P1", [Content.str "Q2"]), ("P2", [Content.obj none]),
          ("P3", [Content.str "Q4"])], 0⟩ 20 =
      parse_entity_relations
        ⟨[("P1", [Content.str "Q2"]), ("P3", [Content.str "Q4"])], 0⟩ 20 :=
  parse_entity_relations_skips_malformed 20 "P2" [Content.obj none]
    [("P1", [Content.str "Q2"])] [("P3", [Content.str "Q4"])] 0 rfl

/-! ## C3 — the per-source cap of the batched fetcher -/

/-- The edge extracted from one result row. -/
def edgeOfBinding (b : Binding) : Edge :=
  (qidOf b.source, qidOf b.prop, qidOf b.target)

theorem getD_setdefault0 (m : SMap Nat) (s' s : String) :
    (setdefault0 m s').getD s 0 = m.getD s 0 := by
  unfold setdefault0
  by_cases h : (m.find? s').isSome
  · rw [if_pos h]
  · rw [if_neg h]
    by_cases hs : s = s'
    · rw [hs, SMap.getD_insert_self]
      unfold SMap.getD
      cases hf : m.find? s'
      · rfl
      · rw [hf] at h; simp at h
    · exact m.getD_insert_ne s' 0 s 0 hs

theorem fetchGo_nil (limit : Nat) (counts : SMap Nat) (acc : FetchResult) :
    fetchGo limit [] counts acc = acc := rfl

theorem fetchGo_cons (limit : Nat) (b : Binding) (rows : List Binding)
    (counts : SMap Nat) (acc : FetchResult) :
    fetchGo limit (b :: rows) counts acc =
      if limit ≤ (setdefault0 counts (qidOf b.source)).getD (qidOf b.source) 0 then
        fetchGo limit rows (setdefault0 counts (qidOf b.source)) acc
      else
        fetchGo limit rows
          ((setdefault0 counts (qidOf b.source)).insert (qidOf b.source)
            ((setdefault0 counts (qidOf b.source)).getD (qidOf b.source) 0 + 1))
          ⟨acc.edges ++ [edgeOfBinding b],
           ((acc.label_map.insert (qidOf b.source) (b.sourceLabel.getD (qidOf b.source))).insert
              (qidOf b.prop) (b.propLabel.getD (qidOf b.prop))).insert
              (qidOf b.target) (b.targetLabel.getD (qidOf b.target)),
           sadd acc.new_targets (qidOf b.target),
           acc.sitelinks_map.insert (qidOf b.target) (parseSitelinks b.targetSitelinks)⟩ := rfl

/-- The acceptance discipline of the row loop: for a fixed source id `s`,
the accepted edges with source `s` are exactly the first
`limit - (already accepted for s)` result rows whose source is `s`, in
row order; every further row for `s` is discarded. -/
theorem fetchGo_filter (limit : Nat) (s : String) :
    ∀ (rows : List Binding) (counts : SMap Nat) (acc : FetchResult),
      counts.getD s 0 ≤ limit →
      (fetchGo limit rows counts acc).edges.filter (fun e => e.1 = s) =
        acc.edges.filter (fun e => e.1 = s) ++
          ((rows.filter (fun b => qidOf b.source = s)).take
            (limit - counts.getD s 0)).map edgeOfBinding := by
  intro rows
  induction rows with
  | nil => intro counts acc _; simp [fetchGo_nil]
  | cons b rows ih =>
    intro counts acc hc
    rw [fetchGo_cons]
    by_cases hs : qidOf b.source = s
    · rw [hs, getD_setdefault0]
      by_cases hcap : limit ≤ counts.getD s 0
      · rw [if_pos hcap]
        have heq : counts.getD s 0 = limit := le_antisymm hc hcap
        have htake : limit - counts.getD s 0 = 0 := by omega
        have htake' : limit - (setdefault0 counts s).getD s 0 = 0 := by
          rw [getD_setdefault0]; omega
        rw [ih (setdefault0 counts s) acc (by rw [getD_setdefault0]; omega)]
        rw [htake, htake']
        simp
      · rw [if_neg hcap]
        have hget : ((setdefault0 counts s).insert s (counts.getD s 0 + 1)).getD s 0
            = counts.getD s 0 + 1 := by
          rw [SMap.getD_insert_self]
        rw [ih _ _ (by rw [hget]; omega)]
        rw [hget]
        rw [List.filter_cons_of_pos (by simp [hs]), List.filter_append]
        have hsplit : limit - counts.getD s 0 = (limit - (counts.getD s 0 + 1)) + 1 := by
          omega
        rw [hsplit, List.take_succ_cons, List.map_cons]
        simp [List.filter_cons_of_pos, edgeOfBinding, hs]
    · rw [List.filter_cons_of_neg (by simp [hs])]
      by_cases hcap : limit ≤ (setdefault0 counts (qidOf b.source)).getD (qidOf b.source) 0
      · rw [if_pos hcap]
        rw [ih _ _ (by rw [getD_setdefault0]; omega)]
        rw [getD_setdefault0]
      · rw [if_neg hcap]
        have hget : ((setdefault0 counts (qidOf b.source)).insert (qidOf b.source)
            ((setdefault0 counts (qidOf b.source)).getD (qidOf b.source) 0 + 1)).getD s 0
            = counts.getD s 0 := by
          rw [SMap.getD_insert_ne _ _ _ _ _ (fun hh => hs hh.symm), getD_setdefault0]
        rw [ih _ _ (by rw [hget]; omega)]
        rw [hget, List.filter_append]
        simp [List.filter_cons_of_neg, edgeOfBinding, hs]

/-- C3 — within one batched fetch, at most `cap` edges are accepted per
distinct source id: the accepted edges for a source are exactly the first
`cap` returned rows with that source, counted in row order, and every
further row for that source is discarded. -/
theorem sparql_fetch_level_per_source_cap (w : World) (qs : List String)
    (rows : List Binding) (limit : Nat) (s : String)
    (hqs : qs ≠ []) (hw : w qs = some rows) :
    (sparql_fetch_level w qs limit).edges.countP (fun e => e.1 = s) ≤ limit ∧
    (sparql_fetch_level w qs limit).edges.filter (fun e => e.1 = s) =
      ((rows.filter (fun b => qidOf b.source = s)).take limit).map edgeOfBinding := by
  have hfetch : sparql_fetch_level w qs limit
      = fetchGo limit rows SMap.empty FetchResult.empty := by
    unfold sparql_fetch_level
    rw [if_neg hqs, hw]
  have hzero : (SMap.empty : SMap Nat).getD s 0 = 0 := by
    simp [SMap.getD, SMap.find?_empty]
  have hfilter := fetchGo_filter limit s rows SMap.empty FetchResult.empty
    (by rw [hzero]; omega)
  rw [hzero, Nat.sub_zero] at hfilter
  have hfe : (FetchResult.empty.edges.filter (fun e => e.1 = s)) = [] := rfl
  rw [hfe, List.nil_append] at hfilter
  constructor
  · rw [hfetch, List.countP_eq_length_filter, hfilter, List.length_map]
    exact le_trans (List.length_take_le _ _) le_rfl
  · rw [hfetch, hfilter]

/-- C3 witness: three rows for the same source under cap 1 — exactly the
first is accepted. -/
theorem sparql_fetch_level_per_source_cap_witness :
    (sparql_fetch_level
        (fun _ => some [⟨"e/Q1", "p/P1", "e/Q2", none, none, none, none, none⟩,
          ⟨"e/Q1", "p/P2", "e/Q3", none, none, none, none, none⟩,
          ⟨"e/Q1", "p/P3", "e/Q4", none, none, none, none, none⟩])
        ["Q1"] 1).edges.countP (fun e => e.1 = "Q1") ≤ 1 ∧
    (sparql_fetch_level
        (fun _ => some [⟨"e/Q1", "p/P1", "e/Q2", none, none, none, none, none⟩,
          ⟨"e/Q1", "p/P2", "e/Q3", none, none, none, none, none⟩,
          ⟨"e/Q1", "p/P3", "e/Q4", none, none, none, none, none⟩])
        ["Q1"] 1).edges.filter (fun e => e.1 = "Q1") =
      (([⟨"e/Q1", "p/P1", "e/Q2", none, none, none, none, none⟩,
          ⟨"e/Q1", "p/P2", "e/Q3", none, none, none, none, none⟩,
          ⟨"e/Q1", "p/P3", "e/Q4", none, none, none, none, none⟩].filter
            (fun b => qidOf b.source = "Q1")).take 1).map edgeOfBinding :=
  sparql_fetch_level_per_source_cap _ ["Q1"] _ 1 "Q1" (by simp) rfl

/-! ## C4 — batched-query failure truncates the traversal -/

theorem sparqlLoop_zero (w : World) (cfg : Config) (d : Nat) (st : TravState)
    (frontier : List String) : sparqlLoop w cfg 0 d st frontier = st := rfl

theorem sparqlLoop_succ (w : World) (cfg : Config) (r d : Nat) (st : TravState)
    (frontier : List String) :
    sparqlLoop w cfg (r + 1) d st frontier =
      if frontier = [] then st
      else
        sparqlLoop w cfg r (d + 1)
          ⟨st.edges ++ (sparql_fetch_level w frontier
              (if d = 0 then cfg.limit_relations else cfg.limit_relations_deep)).edges,
           (sparql_fetch_level w frontier
              (if d = 0 then cfg.limit_relations else cfg.limit_relations_deep)).edges.foldl
             (fun a e => sadd (sadd a e.2.1) e.2.2) st.all_ids,
           ((sparql_fetch_level w frontier
              (if d = 0 then cfg.limit_relations else cfg.limit_relations_deep)).new_targets.foldl
             (hubStep cfg.max_entity_sitelinks d
               (sparql_fetch_level w frontier
                 (if d = 0 then cfg.limit_relations else cfg.limit_relations_deep)).sitelinks_map)
             (st.visited, st.depth_map, [])).2.1,
           st.label_map.update (sparql_fetch_level w frontier
              (if d = 0 then cfg.limit_relations else cfg.limit_relations_deep)).label_map,
           ((sparql_fetch_level w frontier
              (if d = 0 then cfg.limit_relations else cfg.limit_relations_deep)).new_targets.foldl
             (hubStep cfg.max_entity_sitelinks d
               (sparql_fetch_level w frontier
                 (if d = 0 then cfg.limit_relations else cfg.limit_relations_deep)).sitelinks_map)
             (st.visited, st.depth_map, [])).1⟩
          ((sparql_fetch_level w frontier
              (if d = 0 then cfg.limit_relations else cfg.limit_relations_deep)).new_targets.foldl
             (hubStep cfg.max_entity_sitelinks d
               (sparql_fetch_level w frontier
                 (if d = 0 then cfg.limit_relations else cfg.limit_relations_deep)).sitelinks_map)
             (st.visited, st.depth_map, [])).2.2 := rfl

theorem sparqlLoop_nil_frontier (w : World) (cfg : Config) (r d : Nat)
    (st : TravState) : sparqlLoop w cfg r d st [] = st := by
  cases r with
  | zero => rfl
  | succ r => rw [sparqlLoop_succ, if_pos rfl]

theorem sparql_fetch_level_of_failure (w : World) (qs : List String) (limit : Nat)
    (hw : w qs = none) : sparql_fetch_level w qs limit = FetchResult.empty := by
  unfold sparql_fetch_level
  by_cases h : qs = []
  · rw [if_pos h]
  · rw [if_neg h, hw]

/-- C4 — on a query timeout or transport error (`sparql_query` returns
`None`) the batched fetcher returns empty results for the whole batch
(empty edge list, empty label map, empty target set, empty popularity
map); the batched BFS loop then continues with an empty next frontier and
immediately stops, returning its accumulated state unchanged — no
expansion past that level, and a normal return (for a failure at the
first level, the traversal returns just the start entity's state). -/
theorem sparql_failure_truncates (w : World) (cfg : Config) (qs : List String)
    (limit : Nat) (st : TravState) (frontier : List String)
    (depth remaining : Nat) (hfr : frontier ≠ []) (hw : w frontier = none) :
    (w qs = none → sparql_fetch_level w qs limit = FetchResult.empty) ∧
    sparqlLoop w cfg (remaining + 1) depth st frontier = st ∧
    (∀ start_qid start_label max_depth, w [start_qid] = none →
      traverse_sparql w start_qid start_label max_depth cfg =
        ⟨[], [start_qid], SMap.empty.insert start_qid 0,
         SMap.empty.insert start_qid start_label, [start_qid]⟩) := by
  have hloop : ∀ (d r : Nat) (st : TravState) (f : List String), f ≠ [] →
      w f = none → sparqlLoop w cfg (r + 1) d st f = st := by
    intro d r st' f hf hwf
    rw [sparqlLoop_succ, if_neg hf]
    simp only [sparql_fetch_level_of_failure w f _ hwf]
    show sparqlLoop w cfg r (d + 1)
      ⟨st'.edges ++ [], _, (st'.visited, st'.depth_map, ([] : List String)).2.1,
       st'.label_map.update FetchResult.empty.label_map, _⟩ _ = st'
    simp only [List.append_nil, List.foldl_nil]
    exact sparqlLoop_nil_frontier w cfg r (d + 1) _
  refine ⟨sparql_fetch_level_of_failure w qs limit,
    hloop depth remaining st frontier hfr hw, ?_⟩
  intro start_qid start_label max_depth hws
  unfold traverse_sparql
  cases max_depth with
  | zero => rfl
  | succ md => exact hloop 0 md _ [start_qid] (by simp) hws

/-- C4 witness: a service that always fails, one nonempty frontier. -/
theorem sparql_failure_truncates_witness :
    sparql_fetch_level (fun _ => none) ["Q5"] 20 = FetchResult.empty ∧
    sparqlLoop (fun _ => none) ⟨20, 5, 0, 50⟩ 3 0
        ⟨[], ["Q1"], SMap.empty.insert "Q1" 0, SMap.empty.insert "Q1" "one", ["Q1"]⟩
        ["Q1"] =
      ⟨[], ["Q1"], SMap.empty.insert "Q1" 0, SMap.empty.insert "Q1" "one", ["Q1"]⟩ ∧
    traverse_sparql (fun _ => none) "Q1" "one" 3 ⟨20, 5, 0, 50⟩ =
      ⟨[], ["Q1"], SMap.empty.insert "Q1" 0, SMap.empty.insert "Q1" "one", ["Q1"]⟩ := by
  have h := sparql_failure_truncates (fun _ => none) ⟨20, 5, 0, 50⟩ ["Q5"] 20
    ⟨[], ["Q1"], SMap.empty.insert "Q1" 0, SMap.empty.insert "Q1" "one", ["Q1"]⟩
    ["Q1"] 0 2 (by simp) rfl
  exact ⟨h.1 rfl, h.2.1, h.2.2 "Q1" "one" 3 rfl⟩

/-! ## C9 — idempotence of the batched strategy under a fixed snapshot -/

theorem sparql_fetch_level_congr (w1 w2 : World) (qs : List String) (limit : Nat)
    (h : w1 qs = w2 qs) :
    sparql_fetch_level w1 qs limit = sparql_fetch_level w2 qs limit := by
  unfold sparql_fetch_level
  rw [h]

theorem sparqlLoop_congr (w1 w2 : World) (cfg : Config)
    (h : ∀ qs, w1 qs = w2 qs) :
    ∀ (r d : Nat) (st : TravState) (f : List String),
      sparqlLoop w1 cfg r d st f = sparqlLoop w2 cfg r d st f := by
  intro r
  induction r with
  | zero => intro d st f; rfl
  | succ r ih =>
    intro d st f
    rw [sparqlLoop_succ, sparqlLoop_succ]
    by_cases hf : f = []
    · rw [if_pos hf, if_pos hf]
    · rw [if_neg hf, if_neg hf]
      simp only [sparql_fetch_level_congr w1 w2 f _ (h f)]
      exact ih (d + 1) _ _

/-- C9 — with a fixed external-data snapshot (the two runs receive the
same rows for every query), running the batched strategy twice yields
the same edge multiset and the same depth map (in fact the entire
results coincide). -/
theorem traverse_sparql_idempotent (w1 w2 : World) (start_qid start_label : String)
    (max_depth : Nat) (cfg : Config) (h : ∀ qs, w1 qs = w2 qs) :
    ((traverse_sparql w1 start_qid start_label max_depth cfg).edges : Multiset Edge) =
      ((traverse_sparql w2 start_qid start_label max_depth cfg).edges : Multiset Edge) ∧
    (∀ k, (traverse_sparql w1 start_qid start_label max_depth cfg).depth_map.find? k =
      (traverse_sparql w2 start_qid start_label max_depth cfg).depth_map.find? k) := by
  have heq : traverse_sparql w1 start_qid start_label max_depth cfg =
      traverse_sparql w2 start_qid start_label max_depth cfg := by
    unfold traverse_sparql
    exact sparqlLoop_congr w1 w2 cfg h max_depth 0 _ _
  rw [heq]
  exact ⟨rfl, fun _ => rfl⟩

/-- C9 witness: two (syntactically distinct) oracles answering every
query identically. -/
theorem traverse_sparql_idempotent_witness :
    ((traverse_sparql (fun qs => if qs = [] then none else none) "Q1" "one" 2
        ⟨20, 5, 0, 50⟩).edges : Multiset Edge) =
      ((traverse_sparql (fun _ => none) "Q1" "one" 2 ⟨20, 5, 0, 50⟩).edges : Multiset Edge) ∧
    (∀ k, (traverse_sparql (fun qs => if qs = [] then none else none) "Q1" "one" 2
        ⟨20, 5, 0, 50⟩).depth_map.find? k =
      (traverse_sparql (fun _ => none) "Q1" "one" 2 ⟨20, 5, 0, 50⟩).depth_map.find? k) :=
  traverse_sparql_idempotent (fun qs => if qs = [] then none else none)
    (fun _ => none) "Q1" "one" 2 ⟨20, 5, 0, 50⟩ (fun qs => by simp)

/-! ## C8 — the reverse fetcher and the expand route -/

theorem fetchReverseGo_nil (limit : Nat) (counts : SMap Nat) (acc : FetchResult) :
    fetchReverseGo limit [] counts acc = acc := rfl

theorem fetchReverseGo_cons (limit : Nat) (b : Binding) (rows : List Binding)
    (counts : SMap Nat) (acc : FetchResult) :
    fetchReverseGo limit (b :: rows) counts acc =
      if limit ≤ (setdefault0 counts (qidOf b.target)).getD (qidOf b.target) 0 then
        fetchReverseGo limit rows (setdefault0 counts (qidOf b.target)) acc
      else
        fetchReverseGo limit rows
          ((setdefault0 counts (qidOf b.target)).insert (qidOf b.target)
            ((setdefault0 counts (qidOf b.target)).getD (qidOf b.target) 0 + 1))
          ⟨acc.edges ++ [edgeOfBinding b],
           ((acc.label_map.insert (qidOf b.source) (b.sourceLabel.getD (qidOf b.source))).insert
              (qidOf b.prop) (b.propLabel.getD (qidOf b.prop))).insert
              (qidOf b.target) (b.targetLabel.getD (qidOf b.target)),
           sadd acc.new_targets (qidOf b.source),
           acc.sitelinks_map.insert (qidOf b.source) (parseSitelinks b.sourceSitelinks)⟩ := rfl

/-- Edges accepted by the reverse row loop come from the rows. -/
theorem fetchReverseGo_edges_sub (limit : Nat) :
    ∀ (rows : List Binding) (counts : SMap Nat) (acc : FetchResult),
      ∀ e ∈ (fetchReverseGo limit rows counts acc).edges,
        e ∈ acc.edges ∨ ∃ b ∈ rows, e = edgeOfBinding b := by
  intro rows
  induction rows with
  | nil => intro counts acc e he; exact Or.inl he
  | cons b rows ih =>
    intro counts acc e he
    rw [fetchReverseGo_cons] at he
    by_cases hcap : limit ≤ (setdefault0 counts (qidOf b.target)).getD (qidOf b.target) 0
    · rw [if_pos hcap] at he
      rcases ih _ _ e he with h | ⟨b', hb', rfl⟩
      · exact Or.inl h
      · exact Or.inr ⟨b', List.mem_cons_of_mem b hb', rfl⟩
    · rw [if_neg hcap] at he
      rcases ih _ _ e he with h | ⟨b', hb', rfl⟩
      · rcases List.mem_append.mp h with h | h
        · exact Or.inl h
        · rcases List.mem_singleton.mp h with rfl
          exact Or.inr ⟨b, List.mem_cons_self b rows, rfl⟩
      · exact Or.inr ⟨b', List.mem_cons_of_mem b hb', rfl⟩

/-- The labelling/popularity invariant of the reverse row loop: every
accepted edge has labels for all three ids and a popularity entry for
its source. -/
theorem fetchReverseGo_keys (limit : Nat) :
    ∀ (rows : List Binding) (counts : SMap Nat) (acc : FetchResult),
      (∀ e ∈ acc.edges, (acc.label_map.find? e.1).isSome ∧
        (acc.label_map.find? e.2.1).isSome ∧ (acc.label_map.find? e.2.2).isSome ∧
        (acc.sitelinks_map.find? e.1).isSome) →
      ∀ e ∈ (fetchReverseGo limit rows counts acc).edges,
        ((fetchReverseGo limit rows counts acc).label_map.find? e.1).isSome ∧
        ((fetchReverseGo limit rows counts acc).label_map.find? e.2.1).isSome ∧
        ((fetchReverseGo limit rows counts acc).label_map.find? e.2.2).isSome ∧
        ((fetchReverseGo limit rows counts acc).sitelinks_map.find? e.1).isSome := by
  intro rows
  induction rows with
  | nil => intro counts acc hacc e he; exact hacc e he
  | cons b rows ih =>
    intro counts acc hacc e he
    rw [fetchReverseGo_cons] at he ⊢
    by_cases hcap : limit ≤ (setdefault0 counts (qidOf b.target)).getD (qidOf b.target) 0
    · rw [if_pos hcap] at he ⊢
      exact ih _ _ hacc e he
    · rw [if_neg hcap] at he ⊢
      apply ih _ _ ?_ e he
      intro e' he'
      rcases List.mem_append.mp he' with h | h
      · rcases hacc e' h with ⟨h1, h2, h3, h4⟩
        exact ⟨SMap.isSome_insert _ _ _ _ (SMap.isSome_insert _ _ _ _
            (SMap.isSome_insert _ _ _ _ h1)),
          SMap.isSome_insert _ _ _ _ (SMap.isSome_insert _ _ _ _
            (SMap.isSome_insert _ _ _ _ h2)),
          SMap.isSome_insert _ _ _ _ (SMap.isSome_insert _ _ _ _
            (SMap.isSome_insert _ _ _ _ h3)),
          SMap.isSome_insert _ _ _ _ h4⟩
      · rcases List.mem_singleton.mp h with rfl
        refine ⟨?_, ?_, ?_, ?_⟩ <;>
          simp [edgeOfBinding, SMap.isSome_insert_iff, SMap.find?_insert_self]

/-- The Cytoscape edge built from an engine edge by both `/api/expand`
loops. -/
def cyEdgeOf (lm : SMap String) (e : Edge) : CyEdge :=
  ⟨e.1, e.2.2, lm.getD e.2.1 e.2.1, e.2.1⟩

theorem foldl_expandFwd_edges (lm : SMap String) (sl : SMap Int) :
    ∀ (es : List Edge) (st : List CyNode × List CyEdge × List String),
      (es.foldl (expandFwdStep lm sl) st).2.1 = st.2.1 ++ es.map (cyEdgeOf lm) := by
  intro es
  induction es with
  | nil => intro st; simp
  | cons e es ih =>
    intro st
    rw [List.foldl_cons, ih]
    show (expandFwdStep lm sl st e).2.1 ++ _ = _
    unfold expandFwdStep cyEdgeOf
    simp

theorem foldl_expandRev_edges (lm : SMap String) (sl : SMap Int) :
    ∀ (es : List Edge) (st : List CyNode × List CyEdge × List String),
      (es.foldl (expandRevStep lm sl) st).2.1 = st.2.1 ++ es.map (cyEdgeOf lm) := by
  intro es
  induction es with
  | nil => intro st; simp
  | cons e es ih =>
    intro st
    rw [List.foldl_cons, ih]
    show (expandRevStep lm sl st e).2.1 ++ _ = _
    unfold expandRevStep cyEdgeOf
    simp

/-- C8 — the engine's reverse batched fetcher: whenever the reverse query
constrains its rows to the requested targets, every returned edge points
at one of the given target ids and carries labels for its source,
property and target plus a popularity count for its source; and the
`/api/expand` route invokes it — the route's edge list is exactly the
forward edges followed by the reverse edges, rendered with the merged
label map. -/
theorem sparql_fetch_reverse_expand (wf wr : World) (cfg : Config)
    (target_qids : List String) (limit : Nat) (qid : String)
    (hwr : ∀ qs rows, wr qs = some rows → ∀ b ∈ rows, qidOf b.target ∈ qs) :
    (∀ e ∈ (sparql_fetch_reverse wr target_qids limit).edges, e.2.2 ∈ target_qids) ∧
    (∀ e ∈ (sparql_fetch_reverse wr target_qids limit).edges,
      ((sparql_fetch_reverse wr target_qids limit).label_map.find? e.1).isSome ∧
      ((sparql_fetch_reverse wr target_qids limit).label_map.find? e.2.1).isSome ∧
      ((sparql_fetch_reverse wr target_qids limit).label_map.find? e.2.2).isSome ∧
      ((sparql_fetch_reverse wr target_qids limit).sitelinks_map.find? e.1).isSome) ∧
    (api_expand wf wr cfg qid).2 =
      (sparql_fetch_level wf [qid] cfg.expand_limit).edges.map
        (cyEdgeOf ((sparql_fetch_level wf [qid] cfg.expand_limit).label_map.update
          (sparql_fetch_reverse wr [qid] cfg.expand_limit).label_map)) ++
      (sparql_fetch_reverse wr [qid] cfg.expand_limit).edges.map
        (cyEdgeOf ((sparql_fetch_level wf [qid] cfg.expand_limit).label_map.update
          (sparql_fetch_reverse wr [qid] cfg.expand_limit).label_map)) := by
  refine ⟨?_, ?_, ?_⟩
  · intro e he
    unfold sparql_fetch_reverse at he
    by_cases hqs : target_qids = []
    · rw [if_pos hqs] at he
      exact absurd he (by simp [FetchResult.empty])
    · rw [if_neg hqs] at he
      cases hw : wr target_qids with
      | none => rw [hw] at he; exact absurd he (by simp [FetchResult.empty])
      | some rows =>
        rw [hw] at he
        rcases fetchReverseGo_edges_sub limit rows SMap.empty FetchResult.empty e he with
          h | ⟨b, hb, rfl⟩
        · exact absurd h (by simp [FetchResult.empty])
        · exact hwr target_qids rows hw b hb
  · intro e he
    unfold sparql_fetch_reverse at he ⊢
    by_cases hqs : target_qids = []
    · rw [if_pos hqs] at he
      exact absurd he (by simp [FetchResult.empty])
    · rw [if_neg hqs] at he ⊢
      cases hw : wr target_qids with
      | none => rw [hw] at he; exact absurd he (by simp [FetchResult.empty])
      | some rows =>
        rw [hw] at he
        exact fetchReverseGo_keys limit rows SMap.empty FetchResult.empty
          (by intro e' he'; exact absurd he' (by simp [FetchResult.empty])) e he
  · simp only [api_expand]
    rw [foldl_expandRev_edges, foldl_expandFwd_edges]
    simp

/-- C8 witness: a reverse service returning no rows — all conjuncts at a
concrete input. -/
theorem sparql_fetch_reverse_expand_witness :
    (∀ e ∈ (sparql_fetch_reverse (fun _ => none) ["Q1"] 50).edges, e.2.2 ∈ ["Q1"]) ∧
    (∀ e ∈ (sparql_fetch_reverse (fun _ => none) ["Q1"] 50).edges,
      ((sparql_fetch_reverse (fun _ => none) ["Q1"] 50).label_map.find? e.1).isSome ∧
      ((sparql_fetch_reverse (fun _ => none) ["Q1"] 50).label_map.find? e.2.1).isSome ∧
      ((sparql_fetch_reverse (fun _ => none) ["Q1"] 50).label_map.find? e.2.2).isSome ∧
      ((sparql_fetch_reverse (fun _ => none) ["Q1"] 50).sitelinks_map.find? e.1).isSome) ∧
    (api_expand (fun _ => none) (fun _ => none) ⟨20, 5, 0, 50⟩ "Q1").2 =
      (sparql_fetch_level (fun _ => none) ["Q1"] 50).edges.map
        (cyEdgeOf ((sparql_fetch_level (fun _ => none) ["Q1"] 50).label_map.update
          (sparql_fetch_reverse (fun _ => none) ["Q1"] 50).label_map)) ++
      (sparql_fetch_reverse (fun _ => none) ["Q1"] 50).edges.map
        (cyEdgeOf ((sparql_fetch_level (fun _ => none) ["Q1"] 50).label_map.update
          (sparql_fetch_reverse (fun _ => none) ["Q1"] 50).label_map)) :=
  sparql_fetch_reverse_expand (fun _ => none) (fun _ => none) ⟨20, 5, 0, 50⟩
    ["Q1"] 50 "Q1" (fun _ _ h => by exact absurd h (by simp))

/-! ## Row-loop invariants of the batched fetcher -/

/-- Well-formedness of the graph-query service: the query's
`VALUES ?source { ... }` clause confines every returned row's source to
the queried batch. -/
def WorldWF (w : World) : Prop :=
  ∀ qs rows, w qs = some rows → ∀ b ∈ rows, qidOf b.source ∈ qs

/-- The service consistently reports a popularity count at or above
`thr` for entity `t` (used to state the hub-suppression claims). -/
def HubbySparql (w : World) (thr : Int) (t : String) : Prop :=
  ∀ qs rows b, w qs = some rows → b ∈ rows → qidOf b.target = t →
    thr ≤ parseSitelinks b.targetSitelinks

theorem fetchGo_edges_sub (limit : Nat) :
    ∀ (rows : List Binding) (counts : SMap Nat) (acc : FetchResult),
      ∀ e ∈ (fetchGo limit rows counts acc).edges,
        e ∈ acc.edges ∨ ∃ b ∈ rows, e = edgeOfBinding b := by
  intro rows
  induction rows with
  | nil => intro counts acc e he; exact Or.inl he
  | cons b rows ih =>
    intro counts acc e he
    rw [fetchGo_cons] at he
    by_cases hcap : limit ≤ (setdefault0 counts (qidOf b.source)).getD (qidOf b.source) 0
    · rw [if_pos hcap] at he
      rcases ih _ _ e he with h | ⟨b', hb', rfl⟩
      · exact Or.inl h
      · exact Or.inr ⟨b', List.mem_cons_of_mem b hb', rfl⟩
    · rw [if_neg hcap] at he
      rcases ih _ _ e he with h | ⟨b', hb', rfl⟩
      · rcases List.mem_append.mp h with h | h
        · exact Or.inl h
        · rcases List.mem_singleton.mp h with rfl
          exact Or.inr ⟨b, List.mem_cons_self b rows, rfl⟩
      · exact Or.inr ⟨b', List.mem_cons_of_mem b hb', rfl⟩

theorem fetchGo_edges_mono (limit : Nat) :
    ∀ (rows : List Binding) (counts : SMap Nat) (acc : FetchResult),
      ∀ e ∈ acc.edges, e ∈ (fetchGo limit rows counts acc).edges := by
  intro rows
  induction rows with
  | nil => intro counts acc e he; exact he
  | cons b rows ih =>
    intro counts acc e he
    rw [fetchGo_cons]
    by_cases hcap : limit ≤ (setdefault0 counts (qidOf b.source)).getD (qidOf b.source) 0
    · rw [if_pos hcap]
      exact ih _ _ e he
    · rw [if_neg hcap]
      exact ih _ _ e (by exact List.mem_append.mpr (Or.inl he))

/-- Every newly observed target is the target of some accepted edge. -/
theorem fetchGo_targets_covered (limit : Nat) :
    ∀ (rows : List Binding) (counts : SMap Nat) (acc : FetchResult),
      (∀ t ∈ acc.new_targets, ∃ e ∈ acc.edges, e.2.2 = t) →
      ∀ t ∈ (fetchGo limit rows counts acc).new_targets,
        ∃ e ∈ (fetchGo limit rows counts acc).edges, e.2.2 = t := by
  intro rows
  induction rows with
  | nil => intro counts acc hacc t ht; exact hacc t ht
  | cons b rows ih =>
    intro counts acc hacc t ht
    rw [fetchGo_cons] at ht ⊢
    by_cases hcap : limit ≤ (setdefault0 counts (qidOf b.source)).getD (qidOf b.source) 0
    · rw [if_pos hcap] at ht ⊢
      exact ih _ _ hacc t ht
    · rw [if_neg hcap] at ht ⊢
      apply ih _ _ ?_ t ht
      intro t' ht'
      rcases mem_sadd.mp ht' with rfl | ht'
      · exact ⟨edgeOfBinding b, List.mem_append.mpr (Or.inr (List.mem_singleton.mpr rfl)), rfl⟩
      · rcases hacc t' ht' with ⟨e, he, rfl⟩
        exact ⟨e, List.mem_append.mpr (Or.inl he), rfl⟩

/-- Every accepted edge's target is recorded among the new targets. -/
theorem fetchGo_edge_targets_mem (limit : Nat) :
    ∀ (rows : List Binding) (counts : SMap Nat) (acc : FetchResult),
      (∀ e ∈ acc.edges, e.2.2 ∈ acc.new_targets) →
      ∀ e ∈ (fetchGo limit rows counts acc).edges,
        e.2.2 ∈ (fetchGo limit rows counts acc).new_targets := by
  intro rows
  induction rows with
  | nil => intro counts acc hacc e he; exact hacc e he
  | cons b rows ih =>
    intro counts acc hacc e he
    rw [fetchGo_cons] at he ⊢
    by_cases hcap : limit ≤ (setdefault0 counts (qidOf b.source)).getD (qidOf b.source) 0
    · rw [if_pos hcap] at he ⊢
      exact ih _ _ hacc e he
    · rw [if_neg hcap] at he ⊢
      apply ih _ _ ?_ e he
      intro e' he'
      rcases List.mem_append.mp he' with h | h
      · exact subset_sadd _ _ (hacc e' h)
      · rcases List.mem_singleton.mp h with rfl
        exact mem_sadd_self _ _

/-- A recorded popularity count comes from some result row for that
target. -/
theorem fetchGo_sitelinks_from_rows (limit : Nat) :
    ∀ (rows : List Binding) (counts : SMap Nat) (acc : FetchResult) (t : String) (v : Int),
      (fetchGo limit rows counts acc).sitelinks_map.find? t = some v →
      acc.sitelinks_map.find? t = some v ∨
        ∃ b ∈ rows, qidOf b.target = t ∧ v = parseSitelinks b.targetSitelinks := by
  intro rows
  induction rows with
  | nil => intro counts acc t v h; exact Or.inl h
  | cons b rows ih =>
    intro counts acc t v h
    rw [fetchGo_cons] at h
    by_cases hcap : limit ≤ (setdefault0 counts (qidOf b.source)).getD (qidOf b.source) 0
    · rw [if_pos hcap] at h
      rcases ih _ _ t v h with h | ⟨b', hb', ht, hv⟩
      · exact Or.inl h
      · exact Or.inr ⟨b', List.mem_cons_of_mem b hb', ht, hv⟩
    · rw [if_neg hcap] at h
      rcases ih _ _ t v h with h | ⟨b', hb', ht, hv⟩
      · show acc.sitelinks_map.find? t = some v ∨ _
        rw [SMap.find?_insert] at h
        by_cases hbt : t = qidOf b.target
        · rw [if_pos hbt] at h
          exact Or.inr ⟨b, List.mem_cons_self b rows, hbt.symm,
            (Option.some_injective _ h).symm⟩
        · rw [if_neg hbt] at h
          exact Or.inl h
      · exact Or.inr ⟨b', List.mem_cons_of_mem b hb', ht, hv⟩

/-- A newly observed target always has a popularity entry. -/
theorem fetchGo_targets_have_sitelinks (limit : Nat) :
    ∀ (rows : List Binding) (counts : SMap Nat) (acc : FetchResult),
      (∀ t ∈ acc.new_targets, ((acc.sitelinks_map.find? t).isSome : Prop)) →
      ∀ t ∈ (fetchGo limit rows counts acc).new_targets,
        (((fetchGo limit rows counts acc).sitelinks_map.find? t).isSome : Prop) := by
  intro rows
  induction rows with
  | nil => intro counts acc hacc t ht; exact hacc t ht
  | cons b rows ih =>
    intro counts acc hacc t ht
    rw [fetchGo_cons] at ht ⊢
    by_cases hcap : limit ≤ (setdefault0 counts (qidOf b.source)).getD (qidOf b.source) 0
    · rw [if_pos hcap] at ht ⊢
      exact ih _ _ hacc t ht
    · rw [if_neg hcap] at ht ⊢
      apply ih _ _ ?_ t ht
      intro t' ht'
      rcases mem_sadd.mp ht' with rfl | ht'
      · exact (SMap.isSome_insert_iff _ _ _ _).mpr (Or.inl rfl)
      · exact SMap.isSome_insert _ _ _ _ (hacc t' ht')

theorem sparql_fetch_level_src (w : World) (qs : List String) (limit : Nat)
    (hWF : WorldWF w) :
    ∀ e ∈ (sparql_fetch_level w qs limit).edges, e.1 ∈ qs := by
  intro e he
  unfold sparql_fetch_level at he
  by_cases hqs : qs = []
  · rw [if_pos hqs] at he
    exact absurd he (by simp [FetchResult.empty])
  · rw [if_neg hqs] at he
    cases hw : w qs with
    | none => rw [hw] at he; exact absurd he (by simp [FetchResult.empty])
    | some rows =>
      rw [hw] at he
      rcases fetchGo_edges_sub limit rows SMap.empty FetchResult.empty e he with
        h | ⟨b, hb, rfl⟩
      · exact absurd h (by simp [FetchResult.empty])
      · exact hWF qs rows hw b hb

theorem sparql_fetch_level_targets_covered (w : World) (qs : List String) (limit : Nat) :
    ∀ t ∈ (sparql_fetch_level w qs limit).new_targets,
      ∃ e ∈ (sparql_fetch_level w qs limit).edges, e.2.2 = t := by
  intro t ht
  unfold sparql_fetch_level at ht ⊢
  by_cases hqs : qs = []
  · rw [if_pos hqs] at ht
    exact absurd ht (by simp [FetchResult.empty])
  · rw [if_neg hqs] at ht ⊢
    cases hw : w qs with
    | none => rw [hw] at ht; exact absurd ht (by simp [FetchResult.empty])
    | some rows =>
      rw [hw] at ht
      exact fetchGo_targets_covered limit rows SMap.empty FetchResult.empty
        (by intro t' ht'; exact absurd ht' (by simp [FetchResult.empty])) t ht

theorem sparql_fetch_level_edge_targets_mem (w : World) (qs : List String) (limit : Nat) :
    ∀ e ∈ (sparql_fetch_level w qs limit).edges,
      e.2.2 ∈ (sparql_fetch_level w qs limit).new_targets := by
  intro e he
  unfold sparql_fetch_level at he ⊢
  by_cases hqs : qs = []
  · rw [if_pos hqs] at he
    exact absurd he (by simp [FetchResult.empty])
  · rw [if_neg hqs] at he ⊢
    cases hw : w qs with
    | none => rw [hw] at he; exact absurd he (by simp [FetchResult.empty])
    | some rows =>
      rw [hw] at he
      exact fetchGo_edge_targets_mem limit rows SMap.empty FetchResult.empty
        (by intro e' he'; exact absurd he' (by simp [FetchResult.empty])) e he

/-- A hub-everywhere entity observed as a new target carries a recorded
popularity count at or above the threshold. -/
theorem sparql_fetch_level_hubby (w : World) (qs : List String) (limit : Nat)
    (thr : Int) (t : String) (hh : HubbySparql w thr t)
    (ht : t ∈ (sparql_fetch_level w qs limit).new_targets) :
    thr ≤ (sparql_fetch_level w qs limit).sitelinks_map.getD t 0 := by
  unfold sparql_fetch_level at ht ⊢
  by_cases hqs : qs = []
  · rw [if_pos hqs] at ht
    exact absurd ht (by simp [FetchResult.empty])
  · rw [if_neg hqs] at ht ⊢
    cases hw : w qs with
    | none => rw [hw] at ht; exact absurd ht (by simp [FetchResult.empty])
    | some rows =>
      rw [hw] at ht
      have ht2 : t ∈ (fetchGo limit rows SMap.empty FetchResult.empty).new_targets := ht
      show thr ≤ (fetchGo limit rows SMap.empty FetchResult.empty).sitelinks_map.getD t 0
      have hsome := fetchGo_targets_have_sitelinks limit rows SMap.empty FetchResult.empty
        (by intro t' ht'; exact absurd ht' (by simp [FetchResult.empty])) t ht2
      cases hfind : (fetchGo limit rows SMap.empty FetchResult.empty).sitelinks_map.find? t with
      | none => rw [hfind] at hsome; exact absurd hsome (by simp)
      | some v =>
        rcases fetchGo_sitelinks_from_rows limit rows SMap.empty FetchResult.empty t v hfind
          with h | ⟨b, hb, hbt, rfl⟩
        · exact absurd h (by simp [FetchResult.empty, SMap.find?_empty])
        · unfold SMap.getD
          rw [hfind]
          exact hh qs rows b hw hb hbt

/-! ## Hub-filter loop invariants -/

theorem hubStep_eq (thr : Int) (d : Nat) (sl : SMap Int)
    (st : List String × SMap Nat × List String) (t : String) :
    hubStep thr d sl st t =
      if t ∈ st.1 then st
      else if 0 < thr ∧ thr ≤ sl.getD t 0 then
        (sadd st.1 t, st.2.1.insert t (d + 1), st.2.2)
      else
        (sadd st.1 t, st.2.1.insert t (d + 1), sadd st.2.2 t) := rfl

theorem hubStep_vis_mono (thr : Int) (d : Nat) (sl : SMap Int)
    (st : List String × SMap Nat × List String) (t : String) :
    st.1 ⊆ (hubStep thr d sl st t).1 := by
  rw [hubStep_eq]
  by_cases h : t ∈ st.1
  · rw [if_pos h]; exact fun x hx => hx
  · rw [if_neg h]
    by_cases hc : 0 < thr ∧ thr ≤ sl.getD t 0
    · rw [if_pos hc]; exact subset_sadd _ _
    · rw [if_neg hc]; exact subset_sadd _ _

theorem hubStep_dm_pres (thr : Int) (d : Nat) (sl : SMap Int)
    (st : List String × SMap Nat × List String) (t : String) :
    ∀ x ∈ st.1, (hubStep thr d sl st t).2.1.find? x = st.2.1.find? x := by
  intro x hx
  rw [hubStep_eq]
  by_cases h : t ∈ st.1
  · rw [if_pos h]
  · have hxt : x ≠ t := fun hh => h (hh ▸ hx)
    rw [if_neg h]
    by_cases hc : 0 < thr ∧ thr ≤ sl.getD t 0
    · rw [if_pos hc]
      exact SMap.find?_insert_ne _ _ _ _ hxt
    · rw [if_neg hc]
      exact SMap.find?_insert_ne _ _ _ _ hxt

theorem hubStep_dm_isSome (thr : Int) (d : Nat) (sl : SMap Int)
    (st : List String × SMap Nat × List String) (t : String) :
    ∀ k, ((st.2.1.find? k).isSome : Prop) →
      (((hubStep thr d sl st t).2.1.find? k).isSome : Prop) := by
  intro k hk
  rw [hubStep_eq]
  by_cases h : t ∈ st.1
  · rw [if_pos h]; exact hk
  · rw [if_neg h]
    by_cases hc : 0 < thr ∧ thr ≤ sl.getD t 0
    · rw [if_pos hc]; exact SMap.isSome_insert _ _ _ _ hk
    · rw [if_neg hc]; exact SMap.isSome_insert _ _ _ _ hk

theorem hubStep_self_vis (thr : Int) (d : Nat) (sl : SMap Int)
    (st : List String × SMap Nat × List String) (t : String) :
    t ∈ (hubStep thr d sl st t).1 := by
  rw [hubStep_eq]
  by_cases h : t ∈ st.1
  · rw [if_pos h]; exact h
  · rw [if_neg h]
    by_cases hc : 0 < thr ∧ thr ≤ sl.getD t 0
    · rw [if_pos hc]; exact mem_sadd_self _ _
    · rw [if_neg hc]; exact mem_sadd_self _ _

theorem hubStep_nf_sub (thr : Int) (d : Nat) (sl : SMap Int)
    (st : List String × SMap Nat × List String) (t : String) :
    ∀ x ∈ (hubStep thr d sl st t).2.2, x ∈ st.2.2 ∨ (x = t ∧ x ∉ st.1) := by
  intro x hx
  rw [hubStep_eq] at hx
  by_cases h : t ∈ st.1
  · rw [if_pos h] at hx; exact Or.inl hx
  · rw [if_neg h] at hx
    by_cases hc : 0 < thr ∧ thr ≤ sl.getD t 0
    · rw [if_pos hc] at hx; exact Or.inl hx
    · rw [if_neg hc] at hx
      rcases mem_sadd.mp hx with rfl | hx
      · exact Or.inr ⟨rfl, h⟩
      · exact Or.inl hx

theorem hubStep_dm_values (thr : Int) (d : Nat) (sl : SMap Int)
    (st : List String × SMap Nat × List String) (t : String) :
    ∀ k v, (hubStep thr d sl st t).2.1.find? k = some v →
      st.2.1.find? k = some v ∨ v = d + 1 := by
  intro k v hv
  rw [hubStep_eq] at hv
  by_cases h : t ∈ st.1
  · rw [if_pos h] at hv; exact Or.inl hv
  · rw [if_neg h] at hv
    by_cases hc : 0 < thr ∧ thr ≤ sl.getD t 0
    · rw [if_pos hc] at hv
      rw [SMap.find?_insert] at hv
      by_cases hk : k = t
      · rw [if_pos hk] at hv
        exact Or.inr (Option.some_injective _ hv).symm
      · rw [if_neg hk] at hv
        exact Or.inl hv
    · rw [if_neg hc] at hv
      rw [SMap.find?_insert] at hv
      by_cases hk : k = t
      · rw [if_pos hk] at hv
        exact Or.inr (Option.some_injective _ hv).symm
      · rw [if_neg hk] at hv
        exact Or.inl hv

/-- The hub node `t` is never placed into the next frontier: either it
is already visited (skipped), or its recorded popularity meets the
nonzero threshold and the hub branch drops it. -/
theorem hubStep_not_nf (thr : Int) (d : Nat) (sl : SMap Int)
    (st : List String × SMap Nat × List String) (u t : String)
    (hcond : u = t → 0 < thr ∧ thr ≤ sl.getD t 0) (hnf : t ∉ st.2.2) :
    t ∉ (hubStep thr d sl st u).2.2 := by
  rw [hubStep_eq]
  by_cases h : u ∈ st.1
  · rw [if_pos h]; exact hnf
  · rw [if_neg h]
    by_cases hc : 0 < thr ∧ thr ≤ sl.getD u 0
    · rw [if_pos hc]; exact hnf
    · rw [if_neg hc]
      intro hx
      rcases mem_sadd.mp hx with rfl | hx
      · exact hc (hcond rfl)
      · exact hnf hx

/-- The combined invariant of the `for t in new_targets` fold. -/
theorem hubFold_inv (thr : Int) (d : Nat) (sl : SMap Int) :
    ∀ (ts vis : List String) (dm : SMap Nat) (nf : List String),
      (vis ⊆ (ts.foldl (hubStep thr d sl) (vis, dm, nf)).1) ∧
      (∀ x ∈ vis, (ts.foldl (hubStep thr d sl) (vis, dm, nf)).2.1.find? x = dm.find? x) ∧
      (∀ k, ((dm.find? k).isSome : Prop) →
        (((ts.foldl (hubStep thr d sl) (vis, dm, nf)).2.1.find? k).isSome : Prop)) ∧
      (∀ u ∈ ts, u ∈ (ts.foldl (hubStep thr d sl) (vis, dm, nf)).1) ∧
      (∀ x ∈ (ts.foldl (hubStep thr d sl) (vis, dm, nf)).2.2,
        x ∈ nf ∨ (x ∈ ts ∧ x ∉ vis)) ∧
      (∀ k v, (ts.foldl (hubStep thr d sl) (vis, dm, nf)).2.1.find? k = some v →
        dm.find? k = some v ∨ v = d + 1) := by
  intro ts
  induction ts with
  | nil =>
    intro vis dm nf
    exact ⟨fun x hx => hx, fun x _ => rfl, fun k hk => hk, by simp,
      fun x hx => Or.inl hx, fun k v hv => Or.inl hv⟩
  | cons u ts ih =>
    intro vis dm nf
    simp only [List.foldl_cons]
    have r1eta : hubStep thr d sl (vis, dm, nf) u =
        ((hubStep thr d sl (vis, dm, nf) u).1,
         (hubStep thr d sl (vis, dm, nf) u).2.1,
         (hubStep thr d sl (vis, dm, nf) u).2.2) := rfl
    rw [r1eta]
    rcases ih (hubStep thr d sl (vis, dm, nf) u).1
      (hubStep thr d sl (vis, dm, nf) u).2.1
      (hubStep thr d sl (vis, dm, nf) u).2.2 with ⟨i1, i2, i3, i4, i5, i6⟩
    refine ⟨?_, ?_, ?_, ?_, ?_, ?_⟩
    · exact fun x hx => i1 (hubStep_vis_mono thr d sl (vis, dm, nf) u hx)
    · intro x hx
      rw [i2 x (hubStep_vis_mono thr d sl (vis, dm, nf) u hx)]
      exact hubStep_dm_pres thr d sl (vis, dm, nf) u x hx
    · intro k hk
      exact i3 k (hubStep_dm_isSome thr d sl (vis, dm, nf) u k hk)
    · intro u' hu'
      rcases List.mem_cons.mp hu' with rfl | hu'
      · exact i1 (hubStep_self_vis thr d sl (vis, dm, nf) u')
      · exact i4 u' hu'
    · intro x hx
      rcases i5 x hx with hx1 | ⟨hx1, hx2⟩
      · rcases hubStep_nf_sub thr d sl (vis, dm, nf) u x hx1 with h | ⟨rfl, h⟩
        · exact Or.inl h
        · exact Or.inr ⟨List.mem_cons_self _ _, h⟩
      · have hxvis : x ∉ vis :=
          fun hv => hx2 (hubStep_vis_mono thr d sl (vis, dm, nf) u hv)
        exact Or.inr ⟨List.mem_cons_of_mem u hx1, hxvis⟩
    · intro k v hv
      rcases i6 k v hv with h | h
      · exact hubStep_dm_values thr d sl (vis, dm, nf) u k v h
      · exact Or.inr h

/-- A node that the service consistently reports at or above a nonzero
threshold never enters the next frontier. -/
theorem hubFold_not_nf (thr : Int) (d : Nat) (sl : SMap Int) (t : String)
    (hcond : 0 < thr ∧ thr ≤ sl.getD t 0) :
    ∀ (ts vis : List String) (dm : SMap Nat) (nf : List String), t ∉ nf →
      t ∉ (ts.foldl (hubStep thr d sl) (vis, dm, nf)).2.2 := by
  intro ts
  induction ts with
  | nil => intro vis dm nf hnf; exact hnf
  | cons u ts ih =>
    intro vis dm nf hnf
    simp only [List.foldl_cons]
    have r1eta : hubStep thr d sl (vis, dm, nf) u =
        ((hubStep thr d sl (vis, dm, nf) u).1,
         (hubStep thr d sl (vis, dm, nf) u).2.1,
         (hubStep thr d sl (vis, dm, nf) u).2.2) := rfl
    rw [r1eta]
    exact ih _ _ _
      (hubStep_not_nf thr d sl (vis, dm, nf) u t (fun _ => hcond) hnf)

theorem hubStep_vis_dm (thr : Int) (d : Nat) (sl : SMap Int)
    (st : List String × SMap Nat × List String) (t : String)
    (h : ∀ x ∈ st.1, ((st.2.1.find? x).isSome : Prop)) :
    ∀ x ∈ (hubStep thr d sl st t).1,
      (((hubStep thr d sl st t).2.1.find? x).isSome : Prop) := by
  intro x hx
  rw [hubStep_eq] at hx ⊢
  by_cases ht : t ∈ st.1
  · rw [if_pos ht] at hx ⊢
    exact h x hx
  · rw [if_neg ht] at hx ⊢
    by_cases hc : 0 < thr ∧ thr ≤ sl.getD t 0
    · rw [if_pos hc] at hx ⊢
      rcases mem_sadd.mp hx with rfl | hx
      · exact (SMap.isSome_insert_iff _ _ _ _).mpr (Or.inl rfl)
      · exact SMap.isSome_insert _ _ _ _ (h x hx)
    · rw [if_neg hc] at hx ⊢
      rcases mem_sadd.mp hx with rfl | hx
      · exact (SMap.isSome_insert_iff _ _ _ _).mpr (Or.inl rfl)
      · exact SMap.isSome_insert _ _ _ _ (h x hx)

theorem hubFold_vis_dm (thr : Int) (d : Nat) (sl : SMap Int) :
    ∀ (ts vis : List String) (dm : SMap Nat) (nf : List String),
      (∀ x ∈ vis, ((dm.find? x).isSome : Prop)) →
      ∀ x ∈ (ts.foldl (hubStep thr d sl) (vis, dm, nf)).1,
        (((ts.foldl (hubStep thr d sl) (vis, dm, nf)).2.1.find? x).isSome : Prop) := by
  intro ts
  induction ts with
  | nil => intro vis dm nf h x hx; exact h x hx
  | cons u ts ih =>
    intro vis dm nf h
    simp only [List.foldl_cons]
    have r1eta : hubStep thr d sl (vis, dm, nf) u =
        ((hubStep thr d sl (vis, dm, nf) u).1,
         (hubStep thr d sl (vis, dm, nf) u).2.1,
         (hubStep thr d sl (vis, dm, nf) u).2.2) := rfl
    rw [r1eta]
    exact ih _ _ _ (hubStep_vis_dm thr d sl (vis, dm, nf) u h)

/-! ## BFS-loop invariants of the batched strategies -/

theorem edgesFold_mono :
    ∀ (es : List Edge) (a : List String),
      a ⊆ es.foldl (fun a e => sadd (sadd a e.2.1) e.2.2) a := by
  intro es
  induction es with
  | nil => intro a x hx; exact hx
  | cons e es ih =>
    intro a x hx
    simp only [List.foldl_cons]
    exact ih _ (subset_sadd _ _ (subset_sadd _ _ hx))

theorem edgesFold_covers :
    ∀ (es : List Edge) (a : List String),
      ∀ e ∈ es, e.2.1 ∈ es.foldl (fun a e => sadd (sadd a e.2.1) e.2.2) a ∧
        e.2.2 ∈ es.foldl (fun a e => sadd (sadd a e.2.1) e.2.2) a := by
  intro es
  induction es with
  | nil => intro a e he; exact absurd he (List.not_mem_nil e)
  | cons e₀ es ih =>
    intro a e he
    simp only [List.foldl_cons]
    rcases List.mem_cons.mp he with rfl | he
    · constructor
      · exact edgesFold_mono es _ (subset_sadd _ _ (mem_sadd_self _ _))
      · exact edgesFold_mono es _ (mem_sadd_self _ _)
    · exact ih _ e he

/-- Depth bound along the batched loop: with `depth + remaining ≤ B` and
all current depth-map values at most `B`, all final values stay at most
`B`. -/
theorem sparqlLoop_dm_le (w : World) (cfg : Config) (B : Nat) :
    ∀ (r d : Nat) (st : TravState) (f : List String),
      d + r ≤ B →
      (∀ k v, st.depth_map.find? k = some v → v ≤ B) →
      ∀ k v, (sparqlLoop w cfg r d st f).depth_map.find? k = some v → v ≤ B := by
  intro r
  induction r with
  | zero => intro d st f _ hst k v hv; exact hst k v hv
  | succ r ih =>
    intro d st f hdr hst k v
    rw [sparqlLoop_succ]
    by_cases hf : f = []
    · rw [if_pos hf]; exact hst k v
    · rw [if_neg hf]
      intro hv
      apply ih (d + 1) _ _ (by omega) ?_ k v hv
      intro k' v' hv'
      rcases (hubFold_inv cfg.max_entity_sitelinks d
          (sparql_fetch_level w f (if d = 0 then cfg.limit_relations
            else cfg.limit_relations_deep)).sitelinks_map
          (sparql_fetch_level w f (if d = 0 then cfg.limit_relations
            else cfg.limit_relations_deep)).new_targets
          st.visited st.depth_map []).2.2.2.2.2 k' v' hv' with h | rfl
      · exact hst k' v' h
      · omega

/-- The start entity stays visited and keeps its depth-map entry. -/
theorem sparqlLoop_start_pres (w : World) (cfg : Config) (s : String) :
    ∀ (r d : Nat) (st : TravState) (f : List String),
      s ∈ st.visited →
      (sparqlLoop w cfg r d st f).depth_map.find? s = st.depth_map.find? s ∧
        s ∈ (sparqlLoop w cfg r d st f).visited := by
  intro r
  induction r with
  | zero => intro d st f hs; exact ⟨rfl, hs⟩
  | succ r ih =>
    intro d st f hs
    rw [sparqlLoop_succ]
    by_cases hf : f = []
    · rw [if_pos hf]; exact ⟨rfl, hs⟩
    · rw [if_neg hf]
      rcases hubFold_inv cfg.max_entity_sitelinks d
          (sparql_fetch_level w f (if d = 0 then cfg.limit_relations
            else cfg.limit_relations_deep)).sitelinks_map
          (sparql_fetch_level w f (if d = 0 then cfg.limit_relations
            else cfg.limit_relations_deep)).new_targets
          st.visited st.depth_map [] with ⟨i1, i2, _, _, _, _⟩
      rcases ih (d + 1)
        ⟨st.edges ++ (sparql_fetch_level w f (if d = 0 then cfg.limit_relations
            else cfg.limit_relations_deep)).edges,
         (sparql_fetch_level w f (if d = 0 then cfg.limit_relations
            else cfg.limit_relations_deep)).edges.foldl
           (fun a e => sadd (sadd a e.2.1) e.2.2) st.all_ids,
         ((sparql_fetch_level w f (if d = 0 then cfg.limit_relations
            else cfg.limit_relations_deep)).new_targets.foldl
           (hubStep cfg.max_entity_sitelinks d
             (sparql_fetch_level w f (if d = 0 then cfg.limit_relations
               else cfg.limit_relations_deep)).sitelinks_map)
           (st.visited, st.depth_map, [])).2.1,
         st.label_map.update (sparql_fetch_level w f (if d = 0 then cfg.limit_relations
            else cfg.limit_relations_deep)).label_map,
         ((sparql_fetch_level w f (if d = 0 then cfg.limit_relations
            else cfg.limit_relations_deep)).new_targets.foldl
           (hubStep cfg.max_entity_sitelinks d
             (sparql_fetch_level w f (if d = 0 then cfg.limit_relations
               else cfg.limit_relations_deep)).sitelinks_map)
           (st.visited, st.depth_map, [])).1⟩
        ((sparql_fetch_level w f (if d = 0 then cfg.limit_relations
            else cfg.limit_relations_deep)).new_targets.foldl
           (hubStep cfg.max_entity_sitelinks d
             (sparql_fetch_level w f (if d = 0 then cfg.limit_relations
               else cfg.limit_relations_deep)).sitelinks_map)
           (st.visited, st.depth_map, [])).2.2 (i1 hs) with ⟨ha, hb⟩
      exact ⟨by rw [ha]; exact i2 s hs, hb⟩

/-- C10 invariant for the batched loop: every edge component lands in
`all_ids`, provided the frontier is covered. -/
theorem sparqlLoop_all_ids (w : World) (cfg : Config) (hWF : WorldWF w) :
    ∀ (r d : Nat) (st : TravState) (f : List String),
      (∀ e ∈ st.edges, e.1 ∈ st.all_ids ∧ e.2.1 ∈ st.all_ids ∧ e.2.2 ∈ st.all_ids) →
      (∀ x ∈ f, x ∈ st.all_ids) →
      ∀ e ∈ (sparqlLoop w cfg r d st f).edges,
        e.1 ∈ (sparqlLoop w cfg r d st f).all_ids ∧
        e.2.1 ∈ (sparqlLoop w cfg r d st f).all_ids ∧
        e.2.2 ∈ (sparqlLoop w cfg r d st f).all_ids := by
  intro r
  induction r with
  | zero => intro d st f hst _ e he; exact hst e he
  | succ r ih =>
    intro d st f hst hf' e
    rw [sparqlLoop_succ]
    by_cases hf : f = []
    · rw [if_pos hf]; exact hst e
    · rw [if_neg hf]
      intro he
      apply ih (d + 1) _ _ ?_ ?_ e he
      · intro e' he'
        rcases List.mem_append.mp he' with h | h
        · rcases hst e' h with ⟨h1, h2, h3⟩
          exact ⟨edgesFold_mono _ _ h1, edgesFold_mono _ _ h2, edgesFold_mono _ _ h3⟩
        · refine ⟨?_, (edgesFold_covers _ _ e' h).1, (edgesFold_covers _ _ e' h).2⟩
          exact edgesFold_mono _ _
            (hf' e'.1 (sparql_fetch_level_src w f _ hWF e' h))
      · intro x hx
        rcases (hubFold_inv cfg.max_entity_sitelinks d
            (sparql_fetch_level w f (if d = 0 then cfg.limit_relations
              else cfg.limit_relations_deep)).sitelinks_map
            (sparql_fetch_level w f (if d = 0 then cfg.limit_relations
              else cfg.limit_relations_deep)).new_targets
            st.visited st.depth_map []).2.2.2.2.1 x hx with h | ⟨h, _⟩
        · exact absurd h (List.not_mem_nil x)
        · rcases sparql_fetch_level_targets_covered w f _ x h with ⟨e', he', rfl⟩
          exact (edgesFold_covers _ _ e' he').2

/-- Every edge target keeps a depth-map entry along the batched loop. -/
theorem sparqlLoop_tgt_dm (w : World) (cfg : Config) :
    ∀ (r d : Nat) (st : TravState) (f : List String),
      (∀ x ∈ st.visited, ((st.depth_map.find? x).isSome : Prop)) →
      (∀ e ∈ st.edges, ((st.depth_map.find? e.2.2).isSome : Prop)) →
      (∀ x ∈ f, x ∈ st.visited) →
      ∀ e ∈ (sparqlLoop w cfg r d st f).edges,
        (((sparqlLoop w cfg r d st f).depth_map.find? e.2.2).isSome : Prop) := by
  intro r
  induction r with
  | zero => intro d st f _ hst _ e he; exact hst e he
  | succ r ih =>
    intro d st f hvd hst hfv e
    rw [sparqlLoop_succ]
    by_cases hf : f = []
    · rw [if_pos hf]; exact hst e
    · rw [if_neg hf]
      intro he
      rcases hubFold_inv cfg.max_entity_sitelinks d
          (sparql_fetch_level w f (if d = 0 then cfg.limit_relations
            else cfg.limit_relations_deep)).sitelinks_map
          (sparql_fetch_level w f (if d = 0 then cfg.limit_relations
            else cfg.limit_relations_deep)).new_targets
          st.visited st.depth_map [] with ⟨i1, _, i3, i4, i5, _⟩
      apply ih (d + 1) _ _ (hubFold_vis_dm _ _ _ _ _ _ _ hvd) ?_ ?_ e he
      · intro e' he'
        rcases List.mem_append.mp he' with h | h
        · exact i3 _ (hst e' h)
        · have := sparql_fetch_level_edge_targets_mem w f _ e' h
          exact hubFold_vis_dm _ _ _ _ _ _ _ hvd _ (i4 _ this)
      · intro x hx
        rcases i5 x hx with h | ⟨h, _⟩
        · exact absurd h (List.not_mem_nil x)
        · exact i4 x h

/-- A hub-reported node that is outside the current frontier never
becomes the source of any accepted edge in the batched loop. -/
theorem sparqlLoop_no_hub_src (w : World) (cfg : Config) (hWF : WorldWF w)
    (t : String) (hh : HubbySparql w cfg.max_entity_sitelinks t)
    (hthr : 0 < cfg.max_entity_sitelinks) :
    ∀ (r d : Nat) (st : TravState) (f : List String),
      t ∉ f → (∀ e ∈ st.edges, e.1 ≠ t) →
      ∀ e ∈ (sparqlLoop w cfg r d st f).edges, e.1 ≠ t := by
  intro r
  induction r with
  | zero => intro d st f _ hst e he; exact hst e he
  | succ r ih =>
    intro d st f htf hst e
    rw [sparqlLoop_succ]
    by_cases hf : f = []
    · rw [if_pos hf]; exact hst e
    · rw [if_neg hf]
      intro he
      apply ih (d + 1) _ _ ?_ ?_ e he
      · by_cases hmem : t ∈ (sparql_fetch_level w f (if d = 0 then cfg.limit_relations
            else cfg.limit_relations_deep)).new_targets
        · exact hubFold_not_nf cfg.max_entity_sitelinks d _ t
            ⟨hthr, sparql_fetch_level_hubby w f _ _ t hh hmem⟩ _ _ _ _
            (List.not_mem_nil t)
        · intro hx
          rcases (hubFold_inv cfg.max_entity_sitelinks d
              (sparql_fetch_level w f (if d = 0 then cfg.limit_relations
                else cfg.limit_relations_deep)).sitelinks_map
              (sparql_fetch_level w f (if d = 0 then cfg.limit_relations
                else cfg.limit_relations_deep)).new_targets
              st.visited st.depth_map []).2.2.2.2.1 t hx with h | ⟨h, _⟩
          · exact List.not_mem_nil t h
          · exact hmem h
      · intro e' he'
        rcases List.mem_append.mp he' with h | h
        · exact hst e' h
        · intro het
          exact htf (het ▸ sparql_fetch_level_src w f _ hWF e' h)

/-- A visited node outside the current frontier contributes no further
edges as a source in the batched loop. -/
theorem sparqlLoop_src_stable (w : World) (cfg : Config) (hWF : WorldWF w)
    (x : String) :
    ∀ (r d : Nat) (st : TravState) (f : List String),
      x ∈ st.visited → x ∉ f →
      ∀ e ∈ (sparqlLoop w cfg r d st f).edges, e ∈ st.edges ∨ e.1 ≠ x := by
  intro r
  induction r with
  | zero => intro d st f _ _ e he; exact Or.inl he
  | succ r ih =>
    intro d st f hxv hxf e
    rw [sparqlLoop_succ]
    by_cases hf : f = []
    · rw [if_pos hf]; exact fun he => Or.inl he
    · rw [if_neg hf]
      intro he
      rcases hubFold_inv cfg.max_entity_sitelinks d
          (sparql_fetch_level w f (if d = 0 then cfg.limit_relations
            else cfg.limit_relations_deep)).sitelinks_map
          (sparql_fetch_level w f (if d = 0 then cfg.limit_relations
            else cfg.limit_relations_deep)).new_targets
          st.visited st.depth_map [] with ⟨i1, _, _, _, i5, _⟩
      have hnf : x ∉ ((sparql_fetch_level w f (if d = 0 then cfg.limit_relations
          else cfg.limit_relations_deep)).new_targets.foldl
            (hubStep cfg.max_entity_sitelinks d
              (sparql_fetch_level w f (if d = 0 then cfg.limit_relations
                else cfg.limit_relations_deep)).sitelinks_map)
            (st.visited, st.depth_map, [])).2.2 := by
        intro hx
        rcases i5 x hx with h | ⟨_, h⟩
        · exact List.not_mem_nil x h
        · exact h hxv
      rcases ih (d + 1) _ _ (i1 hxv) hnf e he with h | h
      · rcases List.mem_append.mp h with h | h
        · exact Or.inl h
        · refine Or.inr ?_
          intro hex
          exact hxf (hex ▸ sparql_fetch_level_src w f _ hWF e h)
      · exact Or.inr h

/-! ## Relation-parse and per-node inner-loop invariants -/

theorem parseGo_ids_mono (limit : Nat) :
    ∀ (stmts : List (String × List Content)) (c : Nat)
      (rels : List (String × String)) (ids : List String),
      ids ⊆ (parseGo limit stmts c rels ids).2 := by
  intro stmts
  induction stmts with
  | nil => intro c rels ids x hx; exact hx
  | cons a stmts ih =>
    intro c rels ids x hx
    rcases a with ⟨p, grp⟩
    rw [parseGo_cons]
    by_cases hc : limit ≤ c
    · rw [if_pos hc]; exact hx
    · rw [if_neg hc]
      cases truthy (targetIdOf (grp.headD (Content.obj none))) with
      | some t => exact ih _ _ _ (subset_sadd _ _ (subset_sadd _ _ hx))
      | none => exact ih _ _ _ hx

theorem parseGo_rels_ids (limit : Nat) :
    ∀ (stmts : List (String × List Content)) (c : Nat)
      (rels : List (String × String)) (ids : List String),
      (∀ pr ∈ rels, pr.1 ∈ ids ∧ pr.2 ∈ ids) →
      ∀ pr ∈ (parseGo limit stmts c rels ids).1,
        pr.1 ∈ (parseGo limit stmts c rels ids).2 ∧
        pr.2 ∈ (parseGo limit stmts c rels ids).2 := by
  intro stmts
  induction stmts with
  | nil =>
    intro c rels ids h pr hpr
    rcases h pr hpr with ⟨h1, h2⟩
    exact ⟨h1, h2⟩
  | cons a stmts ih =>
    intro c rels ids h pr hpr
    rcases a with ⟨p, grp⟩
    rw [parseGo_cons] at hpr ⊢
    by_cases hc : limit ≤ c
    · rw [if_pos hc] at hpr ⊢
      exact h pr hpr
    · rw [if_neg hc] at hpr ⊢
      cases ht : truthy (targetIdOf (grp.headD (Content.obj none))) with
      | some t =>
        rw [ht] at hpr
        show pr.1 ∈ (parseGo limit stmts (c + 1) (rels ++ [(p, t)])
            (sadd (sadd ids p) t)).2 ∧
          pr.2 ∈ (parseGo limit stmts (c + 1) (rels ++ [(p, t)])
            (sadd (sadd ids p) t)).2
        apply ih _ _ _ ?_ pr hpr
        intro pr' hpr'
        rcases List.mem_append.mp hpr' with hh | hh
        · rcases h pr' hh with ⟨h1, h2⟩
          exact ⟨subset_sadd _ _ (subset_sadd _ _ h1),
            subset_sadd _ _ (subset_sadd _ _ h2)⟩
        · rcases List.mem_singleton.mp hh with rfl
          exact ⟨subset_sadd _ _ (mem_sadd_self _ _), mem_sadd_self _ _⟩
      | none =>
        rw [ht] at hpr
        show pr.1 ∈ (parseGo limit stmts c rels ids).2 ∧
          pr.2 ∈ (parseGo limit stmts c rels ids).2
        exact ih _ _ _ h pr hpr

theorem parse_entity_relations_ids (data : EntityData) (limit : Nat) :
    ∀ pr ∈ (parse_entity_relations data limit).1,
      pr.1 ∈ (parse_entity_relations data limit).2 ∧
      pr.2 ∈ (parse_entity_relations data limit).2 :=
  parseGo_rels_ids limit data.statements 0 [] []
    (fun pr hpr => absurd hpr (List.not_mem_nil pr))

theorem restInnerStep_eq (md : Nat) (q : String) (d : Nat)
    (st : List Edge × List String × SMap Nat × List (String × Nat))
    (pt : String × String) :
    restInnerStep md q d st pt =
      if pt.2 ∈ st.2.1 then (st.1 ++ [(q, pt.1, pt.2)], st.2.1, st.2.2.1, st.2.2.2)
      else if d + 1 < md then
        (st.1 ++ [(q, pt.1, pt.2)], sadd st.2.1 pt.2,
          st.2.2.1.insert pt.2 (d + 1), st.2.2.2 ++ [(pt.2, d + 1)])
      else
        (st.1 ++ [(q, pt.1, pt.2)], sadd st.2.1 pt.2,
          st.2.2.1.insert pt.2 (d + 1), st.2.2.2) := rfl

/-- The combined invariant of one step of the per-node inner loop. -/
theorem restInnerStep_inv (md : Nat) (q : String) (d : Nat)
    (st : List Edge × List String × SMap Nat × List (String × Nat))
    (pt : String × String) :
    (st.2.1 ⊆ (restInnerStep md q d st pt).2.1) ∧
    (∀ x ∈ st.2.1,
      (restInnerStep md q d st pt).2.2.1.find? x = st.2.2.1.find? x) ∧
    (∀ k, ((st.2.2.1.find? k).isSome : Prop) →
      (((restInnerStep md q d st pt).2.2.1.find? k).isSome : Prop)) ∧
    ((restInnerStep md q d st pt).1 = st.1 ++ [(q, pt.1, pt.2)]) ∧
    (∀ p ∈ (restInnerStep md q d st pt).2.2.2,
      p ∈ st.2.2.2 ∨ (p.2 = d + 1 ∧ d + 1 < md ∧ p.1 ∉ st.2.1 ∧ p.1 = pt.2)) ∧
    (∀ k v, (restInnerStep md q d st pt).2.2.1.find? k = some v →
      st.2.2.1.find? k = some v ∨ v = d + 1) ∧
    (pt.2 ∈ (restInnerStep md q d st pt).2.1) := by
  rw [restInnerStep_eq]
  by_cases hv : pt.2 ∈ st.2.1
  · rw [if_pos hv]
    exact ⟨fun x hx => hx, fun x _ => rfl, fun k hk => hk, rfl,
      fun p hp => Or.inl hp, fun k v hkv => Or.inl hkv, hv⟩
  · rw [if_neg hv]
    have hvals : ∀ k v, (st.2.2.1.insert pt.2 (d + 1)).find? k = some v →
        st.2.2.1.find? k = some v ∨ v = d + 1 := by
      intro k v hkv
      rw [SMap.find?_insert] at hkv
      by_cases hk : k = pt.2
      · rw [if_pos hk] at hkv
        exact Or.inr (Option.some_injective _ hkv).symm
      · rw [if_neg hk] at hkv
        exact Or.inl hkv
    by_cases hd : d + 1 < md
    · rw [if_pos hd]
      refine ⟨subset_sadd _ _, ?_, ?_, rfl, ?_, hvals, mem_sadd_self _ _⟩
      · intro x hx
        exact SMap.find?_insert_ne _ _ _ _ (fun hh => hv (hh ▸ hx))
      · intro k hk
        exact SMap.isSome_insert _ _ _ _ hk
      · intro p hp
        rcases List.mem_append.mp hp with hp | hp
        · exact Or.inl hp
        · rcases List.mem_singleton.mp hp with rfl
          exact Or.inr ⟨rfl, hd, hv, rfl⟩
    · rw [if_neg hd]
      refine ⟨subset_sadd _ _, ?_, ?_, rfl, fun p hp => Or.inl hp, hvals,
        mem_sadd_self _ _⟩
      · intro x hx
        exact SMap.find?_insert_ne _ _ _ _ (fun hh => hv (hh ▸ hx))
      · intro k hk
        exact SMap.isSome_insert _ _ _ _ hk

theorem restInnerStep_vis_dm (md : Nat) (q : String) (d : Nat)
    (st : List Edge × List String × SMap Nat × List (String × Nat))
    (pt : String × String)
    (h : ∀ x ∈ st.2.1, ((st.2.2.1.find? x).isSome : Prop)) :
    ∀ x ∈ (restInnerStep md q d st pt).2.1,
      (((restInnerStep md q d st pt).2.2.1.find? x).isSome : Prop) := by
  intro x hx
  rw [restInnerStep_eq] at hx ⊢
  by_cases hv : pt.2 ∈ st.2.1
  · rw [if_pos hv] at hx ⊢
    exact h x hx
  · rw [if_neg hv] at hx ⊢
    by_cases hd : d + 1 < md
    · rw [if_pos hd] at hx ⊢
      rcases mem_sadd.mp hx with rfl | hx
      · exact (SMap.isSome_insert_iff _ _ _ _).mpr (Or.inl rfl)
      · exact SMap.isSome_insert _ _ _ _ (h x hx)
    · rw [if_neg hd] at hx ⊢
      rcases mem_sadd.mp hx with rfl | hx
      · exact (SMap.isSome_insert_iff _ _ _ _).mpr (Or.inl rfl)
      · exact SMap.isSome_insert _ _ _ _ (h x hx)

/-- The combined invariant of the per-node inner loop over the parsed
relations: visited only grows, previously visited keys keep their depth,
the edge list extends by one edge per relation in order, every enqueued
entry is a fresh target at depth `d + 1` below the depth bound, new
depth values are exactly `d + 1`, and every relation target ends up
visited. -/
theorem restInnerFold_inv (md : Nat) (q : String) (d : Nat) :
    ∀ (raw : List (String × String))
      (st : List Edge × List String × SMap Nat × List (String × Nat)),
      (st.2.1 ⊆ (raw.foldl (restInnerStep md q d) st).2.1) ∧
      (∀ x ∈ st.2.1,
        (raw.foldl (restInnerStep md q d) st).2.2.1.find? x = st.2.2.1.find? x) ∧
      (∀ k, ((st.2.2.1.find? k).isSome : Prop) →
        (((raw.foldl (restInnerStep md q d) st).2.2.1.find? k).isSome : Prop)) ∧
      ((raw.foldl (restInnerStep md q d) st).1 =
        st.1 ++ raw.map (fun pt => (q, pt.1, pt.2))) ∧
      (∀ p ∈ (raw.foldl (restInnerStep md q d) st).2.2.2,
        p ∈ st.2.2.2 ∨
          (p.2 = d + 1 ∧ d + 1 < md ∧ p.1 ∉ st.2.1 ∧ ∃ pt ∈ raw, p.1 = pt.2)) ∧
      (∀ k v, (raw.foldl (restInnerStep md q d) st).2.2.1.find? k = some v →
        st.2.2.1.find? k = some v ∨ v = d + 1) ∧
      (∀ pt ∈ raw, pt.2 ∈ (raw.foldl (restInnerStep md q d) st).2.1) := by
  intro raw
  induction raw with
  | nil =>
    intro st
    exact ⟨fun x hx => hx, fun x _ => rfl, fun k hk => hk, by simp,
      fun p hp => Or.inl hp, fun k v hkv => Or.inl hkv, by simp⟩
  | cons pt raw ih =>
    intro st
    simp only [List.foldl_cons]
    rcases ih (restInnerStep md q d st pt) with ⟨i1, i2, i3, i4, i5, i6, i7⟩
    rcases restInnerStep_inv md q d st pt with ⟨s1, s2, s3, s4, s5, s6, s7⟩
    refine ⟨fun x hx => i1 (s1 hx), ?_, fun k hk => i3 k (s3 k hk), ?_, ?_, ?_, ?_⟩
    · intro x hx
      rw [i2 x (s1 hx)]
      exact s2 x hx
    · rw [i4, s4]
      simp
    · intro p hp
      rcases i5 p hp with hp | ⟨h1, h2, h3, pt', hpt', h4⟩
      · rcases s5 p hp with hp | ⟨h1, h2, h3, h4⟩
        · exact Or.inl hp
        · exact Or.inr ⟨h1, h2, h3, pt, List.mem_cons_self pt raw, h4⟩
      · exact Or.inr ⟨h1, h2, fun hx => h3 (s1 hx),
          pt', List.mem_cons_of_mem pt hpt', h4⟩
    · intro k v hkv
      rcases i6 k v hkv with h | h
      · exact s6 k v h
      · exact Or.inr h
    · intro pt' hpt'
      rcases List.mem_cons.mp hpt' with rfl | hpt'
      · exact i1 s7
      · exact i7 pt' hpt'

theorem restInnerFold_vis_dm (md : Nat) (q : String) (d : Nat) :
    ∀ (raw : List (String × String))
      (st : List Edge × List String × SMap Nat × List (String × Nat)),
      (∀ x ∈ st.2.1, ((st.2.2.1.find? x).isSome : Prop)) →
      ∀ x ∈ (raw.foldl (restInnerStep md q d) st).2.1,
        (((raw.foldl (restInnerStep md q d) st).2.2.1.find? x).isSome : Prop) := by
  intro raw
  induction raw with
  | nil => intro st h x hx; exact h x hx
  | cons pt raw ih =>
    intro st h
    simp only [List.foldl_cons]
    exact ih _ (restInnerStep_vis_dm md q d st pt h)

/-! ## Per-node BFS-loop invariants -/

theorem restLoop_zero (rest : Rest) (cfg : Config) (md : Nat)
    (queue : List (String × Nat)) (vis : List String) (dm : SMap Nat)
    (edges : List Edge) (ids : List String) :
    restLoop rest cfg md 0 queue vis dm edges ids = (edges, ids, dm) := rfl

theorem restLoop_nil (rest : Rest) (cfg : Config) (md : Nat) (fuel : Nat)
    (vis : List String) (dm : SMap Nat) (edges : List Edge) (ids : List String) :
    restLoop rest cfg md (fuel + 1) [] vis dm edges ids = (edges, ids, dm) := rfl

theorem restLoop_cons (rest : Rest) (cfg : Config) (md : Nat) (fuel : Nat)
    (q : String) (d : Nat) (queue : List (String × Nat)) (vis : List String)
    (dm : SMap Nat) (edges : List Edge) (ids : List String) :
    restLoop rest cfg md (fuel + 1) ((q, d) :: queue) vis dm edges ids =
      match rest q with
      | none => restLoop rest cfg md fuel queue vis dm edges ids
      | some data =>
        if 0 < cfg.max_entity_sitelinks ∧ 0 < d ∧
            cfg.max_entity_sitelinks ≤ (data.sitelinksCount : Int) then
          restLoop rest cfg md fuel queue vis dm edges ids
        else
          restLoop rest cfg md fuel
            (queue ++ ((parse_entity_relations data
                (if d = 0 then cfg.limit_relations else cfg.limit_relations_deep)).1.foldl
                (restInnerStep md q d) (edges, vis, dm, [])).2.2.2)
            ((parse_entity_relations data
                (if d = 0 then cfg.limit_relations else cfg.limit_relations_deep)).1.foldl
                (restInnerStep md q d) (edges, vis, dm, [])).2.1
            ((parse_entity_relations data
                (if d = 0 then cfg.limit_relations else cfg.limit_relations_deep)).1.foldl
                (restInnerStep md q d) (edges, vis, dm, [])).2.2.1
            ((parse_entity_relations data
                (if d = 0 then cfg.limit_relations else cfg.limit_relations_deep)).1.foldl
                (restInnerStep md q d) (edges, vis, dm, [])).1
            (supdate ids (parse_entity_relations data
                (if d = 0 then cfg.limit_relations else cfg.limit_relations_deep)).2) := rfl

theorem restLoop_cons_none {rest : Rest} {cfg : Config} {md fuel : Nat}
    {q : String} {d : Nat} {queue : List (String × Nat)} {vis : List String}
    {dm : SMap Nat} {edges : List Edge} {ids : List String}
    (hrq : rest q = none) :
    restLoop rest cfg md (fuel + 1) ((q, d) :: queue) vis dm edges ids =
      restLoop rest cfg md fuel queue vis dm edges ids := by
  rw [restLoop_cons, hrq]

theorem restLoop_cons_hub {rest : Rest} {cfg : Config} {md fuel : Nat}
    {q : String} {d : Nat} {queue : List (String × Nat)} {vis : List String}
    {dm : SMap Nat} {edges : List Edge} {ids : List String} {data : EntityData}
    (hrq : rest q = some data)
    (hcond : 0 < cfg.max_entity_sitelinks ∧ 0 < d ∧
      cfg.max_entity_sitelinks ≤ (data.sitelinksCount : Int)) :
    restLoop rest cfg md (fuel + 1) ((q, d) :: queue) vis dm edges ids =
      restLoop rest cfg md fuel queue vis dm edges ids := by
  rw [restLoop_cons, hrq]
  exact if_pos hcond

theorem restLoop_cons_expand {rest : Rest} {cfg : Config} {md fuel : Nat}
    {q : String} {d : Nat} {queue : List (String × Nat)} {vis : List String}
    {dm : SMap Nat} {edges : List Edge} {ids : List String} {data : EntityData}
    (hrq : rest q = some data)
    (hcond : ¬(0 < cfg.max_entity_sitelinks ∧ 0 < d ∧
      cfg.max_entity_sitelinks ≤ (data.sitelinksCount : Int))) :
    restLoop rest cfg md (fuel + 1) ((q, d) :: queue) vis dm edges ids =
      restLoop rest cfg md fuel
        (queue ++ ((parse_entity_relations data
            (if d = 0 then cfg.limit_relations else cfg.limit_relations_deep)).1.foldl
            (restInnerStep md q d) (edges, vis, dm, [])).2.2.2)
        ((parse_entity_relations data
            (if d = 0 then cfg.limit_relations else cfg.limit_relations_deep)).1.foldl
            (restInnerStep md q d) (edges, vis, dm, [])).2.1
        ((parse_entity_relations data
            (if d = 0 then cfg.limit_relations else cfg.limit_relations_deep)).1.foldl
            (restInnerStep md q d) (edges, vis, dm, [])).2.2.1
        ((parse_entity_relations data
            (if d = 0 then cfg.limit_relations else cfg.limit_relations_deep)).1.foldl
            (restInnerStep md q d) (edges, vis, dm, [])).1
        (supdate ids (parse_entity_relations data
            (if d = 0 then cfg.limit_relations else cfg.limit_relations_deep)).2) := by
  rw [restLoop_cons, hrq]
  exact if_neg hcond

/-- Depth bound along the per-node loop. -/
theorem restLoop_dm_le (rest : Rest) (cfg : Config) (md : Nat) :
    ∀ (fuel : Nat) (queue : List (String × Nat)) (vis : List String)
      (dm : SMap Nat) (edges : List Edge) (ids : List String),
      (∀ p ∈ queue, p.2 < md) →
      (∀ k v, dm.find? k = some v → v ≤ md) →
      ∀ k v, (restLoop rest cfg md fuel queue vis dm edges ids).2.2.find? k = some v →
        v ≤ md := by
  intro fuel
  induction fuel with
  | zero => intro queue vis dm edges ids _ hdm k v; exact hdm k v
  | succ fuel ih =>
    intro queue vis dm edges ids hq hdm k v
    cases queue with
    | nil => exact hdm k v
    | cons p queue =>
      rcases p with ⟨q, d⟩
      cases hrq : rest q with
      | none =>
        rw [restLoop_cons_none hrq]
        exact ih queue vis dm edges ids
          (fun p hp => hq p (List.mem_cons_of_mem _ hp)) hdm k v
      | some data =>
        by_cases hcond : 0 < cfg.max_entity_sitelinks ∧ 0 < d ∧
            cfg.max_entity_sitelinks ≤ (data.sitelinksCount : Int)
        · rw [restLoop_cons_hub hrq hcond]
          exact ih queue vis dm edges ids
            (fun p hp => hq p (List.mem_cons_of_mem _ hp)) hdm k v
        · rw [restLoop_cons_expand hrq hcond]
          have hd : d < md := hq (q, d) (List.mem_cons_self _ _)
          rcases restInnerFold_inv md q d
            (parse_entity_relations data
              (if d = 0 then cfg.limit_relations else cfg.limit_relations_deep)).1
            (edges, vis, dm, []) with ⟨_, _, _, _, i5, i6, _⟩
          apply ih _ _ _ _ _ ?_ ?_ k v
          · intro p hp
            rcases List.mem_append.mp hp with hp | hp
            · exact hq p (List.mem_cons_of_mem _ hp)
            · rcases i5 p hp with hp | ⟨h1, h2, _, _⟩
              · exact absurd hp (List.not_mem_nil p)
              · omega
          · intro k' v' hv'
            rcases i6 k' v' hv' with h | rfl
            · exact hdm k' v' h
            · omega

/-- The start entity keeps its depth-map entry along the per-node loop. -/
theorem restLoop_start_pres (rest : Rest) (cfg : Config) (md : Nat) (s : String) :
    ∀ (fuel : Nat) (queue : List (String × Nat)) (vis : List String)
      (dm : SMap Nat) (edges : List Edge) (ids : List String),
      s ∈ vis →
      (restLoop rest cfg md fuel queue vis dm edges ids).2.2.find? s = dm.find? s := by
  intro fuel
  induction fuel with
  | zero => intro queue vis dm edges ids _; rfl
  | succ fuel ih =>
    intro queue vis dm edges ids hs
    cases queue with
    | nil => rfl
    | cons p queue =>
      rcases p with ⟨q, d⟩
      cases hrq : rest q with
      | none =>
        rw [restLoop_cons_none hrq]
        exact ih queue vis dm edges ids hs
      | some data =>
        by_cases hcond : 0 < cfg.max_entity_sitelinks ∧ 0 < d ∧
            cfg.max_entity_sitelinks ≤ (data.sitelinksCount : Int)
        · rw [restLoop_cons_hub hrq hcond]
          exact ih queue vis dm edges ids hs
        · rw [restLoop_cons_expand hrq hcond]
          rcases restInnerFold_inv md q d
            (parse_entity_relations data
              (if d = 0 then cfg.limit_relations else cfg.limit_relations_deep)).1
            (edges, vis, dm, []) with ⟨i1, i2, _, _, _, _, _⟩
          rw [ih _ _ _ _ _ (i1 hs)]
          exact i2 s hs

/-- C10 invariant for the per-node loop. -/
theorem restLoop_all_ids (rest : Rest) (cfg : Config) (md : Nat) :
    ∀ (fuel : Nat) (queue : List (String × Nat)) (vis : List String)
      (dm : SMap Nat) (edges : List Edge) (ids : List String),
      (∀ e ∈ edges, e.1 ∈ ids ∧ e.2.1 ∈ ids ∧ e.2.2 ∈ ids) →
      (∀ p ∈ queue, p.1 ∈ ids) →
      ∀ e ∈ (restLoop rest cfg md fuel queue vis dm edges ids).1,
        e.1 ∈ (restLoop rest cfg md fuel queue vis dm edges ids).2.1 ∧
        e.2.1 ∈ (restLoop rest cfg md fuel queue vis dm edges ids).2.1 ∧
        e.2.2 ∈ (restLoop rest cfg md fuel queue vis dm edges ids).2.1 := by
  intro fuel
  induction fuel with
  | zero => intro queue vis dm edges ids he _ e hme; exact he e hme
  | succ fuel ih =>
    intro queue vis dm edges ids he hq e
    cases queue with
    | nil => exact he e
    | cons p queue =>
      rcases p with ⟨q, d⟩
      cases hrq : rest q with
      | none =>
        rw [restLoop_cons_none hrq]
        exact ih queue vis dm edges ids he
          (fun p hp => hq p (List.mem_cons_of_mem _ hp)) e
      | some data =>
        by_cases hcond : 0 < cfg.max_entity_sitelinks ∧ 0 < d ∧
            cfg.max_entity_sitelinks ≤ (data.sitelinksCount : Int)
        · rw [restLoop_cons_hub hrq hcond]
          exact ih queue vis dm edges ids he
            (fun p hp => hq p (List.mem_cons_of_mem _ hp)) e
        · rw [restLoop_cons_expand hrq hcond]
          rcases restInnerFold_inv md q d
            (parse_entity_relations data
              (if d = 0 then cfg.limit_relations else cfg.limit_relations_deep)).1
            (edges, vis, dm, []) with ⟨_, _, _, i4, i5, _, _⟩
          apply ih _ _ _ _ _ ?_ ?_ e
          · rw [i4]
            intro e' he'
            rcases List.mem_append.mp he' with h | h
            · rcases he e' h with ⟨h1, h2, h3⟩
              exact ⟨subset_supdate _ _ h1, subset_supdate _ _ h2,
                subset_supdate _ _ h3⟩
            · rcases List.mem_map.mp h with ⟨pt, hpt, rfl⟩
              rcases parse_entity_relations_ids data _ pt hpt with ⟨hp1, hp2⟩
              refine ⟨subset_supdate _ _ (hq (q, d) (List.mem_cons_self _ _)), ?_, ?_⟩
              · exact mem_supdate.mpr (Or.inr hp1)
              · exact mem_supdate.mpr (Or.inr hp2)
          · intro p hp
            rcases List.mem_append.mp hp with hp | hp
            · exact subset_supdate _ _ (hq p (List.mem_cons_of_mem _ hp))
            · rcases i5 p hp with hp | ⟨_, _, _, pt, hpt, hpt2⟩
              · exact absurd hp (List.not_mem_nil p)
              · rw [hpt2]
                exact mem_supdate.mpr
                  (Or.inr (parse_entity_relations_ids data _ pt hpt).2)

/-- Every edge target keeps a depth-map entry along the per-node loop. -/
theorem restLoop_tgt_dm (rest : Rest) (cfg : Config) (md : Nat) :
    ∀ (fuel : Nat) (queue : List (String × Nat)) (vis : List String)
      (dm : SMap Nat) (edges : List Edge) (ids : List String),
      (∀ x ∈ vis, ((dm.find? x).isSome : Prop)) →
      (∀ e ∈ edges, ((dm.find? e.2.2).isSome : Prop)) →
      ∀ e ∈ (restLoop rest cfg md fuel queue vis dm edges ids).1,
        (((restLoop rest cfg md fuel queue vis dm edges ids).2.2.find? e.2.2).isSome
          : Prop) := by
  intro fuel
  induction fuel with
  | zero => intro queue vis dm edges ids _ he e hme; exact he e hme
  | succ fuel ih =>
    intro queue vis dm edges ids hv he e
    cases queue with
    | nil => exact he e
    | cons p queue =>
      rcases p with ⟨q, d⟩
      cases hrq : rest q with
      | none =>
        rw [restLoop_cons_none hrq]
        exact ih queue vis dm edges ids hv he e
      | some data =>
        by_cases hcond : 0 < cfg.max_entity_sitelinks ∧ 0 < d ∧
            cfg.max_entity_sitelinks ≤ (data.sitelinksCount : Int)
        · rw [restLoop_cons_hub hrq hcond]
          exact ih queue vis dm edges ids hv he e
        · rw [restLoop_cons_expand hrq hcond]
          rcases restInnerFold_inv md q d
            (parse_entity_relations data
              (if d = 0 then cfg.limit_relations else cfg.limit_relations_deep)).1
            (edges, vis, dm, []) with ⟨_, _, i3, i4, _, _, i7⟩
          apply ih _ _ _ _ _ (restInnerFold_vis_dm md q d _ _ hv) ?_ e
          rw [i4]
          intro e' he'
          rcases List.mem_append.mp he' with h | h
          · exact i3 _ (he e' h)
          · rcases List.mem_map.mp h with ⟨pt, hpt, rfl⟩
            exact restInnerFold_vis_dm md q d _ _ hv _ (i7 pt hpt)

/-- The popularity oracle consistently reports `t` at or above `thr`. -/
def HubbyRest (rest : Rest) (thr : Int) (t : String) : Prop :=
  ∀ data, rest t = some data → thr ≤ (data.sitelinksCount : Int)

/-- A hub-reported non-root node contributes no outgoing edges in the
per-node loop: when popped (always at depth > 0) its expansion is
skipped before any relation is parsed. -/
theorem restLoop_no_hub_src (rest : Rest) (cfg : Config) (md : Nat) (t : String)
    (hthr : 0 < cfg.max_entity_sitelinks)
    (hhub : HubbyRest rest cfg.max_entity_sitelinks t) :
    ∀ (fuel : Nat) (queue : List (String × Nat)) (vis : List String)
      (dm : SMap Nat) (edges : List Edge) (ids : List String),
      (∀ p ∈ queue, p.1 = t → 0 < p.2) →
      (∀ e ∈ edges, e.1 ≠ t) →
      ∀ e ∈ (restLoop rest cfg md fuel queue vis dm edges ids).1, e.1 ≠ t := by
  intro fuel
  induction fuel with
  | zero => intro queue vis dm edges ids _ he e hme; exact he e hme
  | succ fuel ih =>
    intro queue vis dm edges ids hq he e
    cases queue with
    | nil => exact he e
    | cons p queue =>
      rcases p with ⟨q, d⟩
      cases hrq : rest q with
      | none =>
        rw [restLoop_cons_none hrq]
        exact ih queue vis dm edges ids
          (fun p hp => hq p (List.mem_cons_of_mem _ hp)) he e
      | some data =>
        by_cases hqt : q = t
        · have hd : 0 < d := hq (q, d) (List.mem_cons_self _ _) hqt
          have hsl := hhub data (by rw [← hqt]; exact hrq)
          rw [restLoop_cons_hub hrq ⟨hthr, hd, hsl⟩]
          exact ih queue vis dm edges ids
            (fun p hp => hq p (List.mem_cons_of_mem _ hp)) he e
        · by_cases hcond : 0 < cfg.max_entity_sitelinks ∧ 0 < d ∧
              cfg.max_entity_sitelinks ≤ (data.sitelinksCount : Int)
          · rw [restLoop_cons_hub hrq hcond]
            exact ih queue vis dm edges ids
              (fun p hp => hq p (List.mem_cons_of_mem _ hp)) he e
          · rw [restLoop_cons_expand hrq hcond]
            rcases restInnerFold_inv md q d
              (parse_entity_relations data
                (if d = 0 then cfg.limit_relations else cfg.limit_relations_deep)).1
              (edges, vis, dm, []) with ⟨_, _, _, i4, i5, _, _⟩
            apply ih _ _ _ _ _ ?_ ?_ e
            · intro p hp
              rcases List.mem_append.mp hp with hp | hp
              · exact hq p (List.mem_cons_of_mem _ hp)
              · rcases i5 p hp with hp | ⟨h1, _, _, _⟩
                · exact absurd hp (List.not_mem_nil p)
                · intro _; omega
            · rw [i4]
              intro e' he'
              rcases List.mem_append.mp he' with h | h
              · exact he e' h
              · rcases List.mem_map.mp h with ⟨pt, _, rfl⟩
                exact hqt

/-- A visited node absent from the queue contributes no further edges as
a source in the per-node loop. -/
theorem restLoop_src_stable (rest : Rest) (cfg : Config) (md : Nat) (s : String) :
    ∀ (fuel : Nat) (queue : List (String × Nat)) (vis : List String)
      (dm : SMap Nat) (edges : List Edge) (ids : List String),
      s ∈ vis → (∀ p ∈ queue, p.1 ≠ s) →
      ∀ e ∈ (restLoop rest cfg md fuel queue vis dm edges ids).1,
        e ∈ edges ∨ e.1 ≠ s := by
  intro fuel
  induction fuel with
  | zero => intro queue vis dm edges ids _ _ e hme; exact Or.inl hme
  | succ fuel ih =>
    intro queue vis dm edges ids hs hq e
    cases queue with
    | nil => exact fun hme => Or.inl hme
    | cons p queue =>
      rcases p with ⟨q, d⟩
      cases hrq : rest q with
      | none =>
        rw [restLoop_cons_none hrq]
        exact ih queue vis dm edges ids hs
          (fun p hp => hq p (List.mem_cons_of_mem _ hp)) e
      | some data =>
        by_cases hcond : 0 < cfg.max_entity_sitelinks ∧ 0 < d ∧
            cfg.max_entity_sitelinks ≤ (data.sitelinksCount : Int)
        · rw [restLoop_cons_hub hrq hcond]
          exact ih queue vis dm edges ids hs
            (fun p hp => hq p (List.mem_cons_of_mem _ hp)) e
        · rw [restLoop_cons_expand hrq hcond]
          rcases restInnerFold_inv md q d
            (parse_entity_relations data
              (if d = 0 then cfg.limit_relations else cfg.limit_relations_deep)).1
            (edges, vis, dm, []) with ⟨i1, _, _, i4, i5, _, _⟩
          intro hme
          have hqinv : ∀ p ∈ queue ++ ((parse_entity_relations data
              (if d = 0 then cfg.limit_relations else cfg.limit_relations_deep)).1.foldl
              (restInnerStep md q d) (edges, vis, dm, [])).2.2.2, p.1 ≠ s := by
            intro p hp
            rcases List.mem_append.mp hp with hp | hp
            · exact hq p (List.mem_cons_of_mem _ hp)
            · rcases i5 p hp with hp | ⟨_, _, h3, _⟩
              · exact absurd hp (List.not_mem_nil p)
              · exact fun hps => h3 (hps ▸ hs)
          rcases ih _ _ _ _ _ (i1 hs) hqinv e hme with h | h
          · rw [i4] at h
            rcases List.mem_append.mp h with h | h
            · exact Or.inl h
            · rcases List.mem_map.mp h with ⟨pt, _, rfl⟩
              exact Or.inr (hq (q, d) (List.mem_cons_self _ _))
          · exact Or.inr h

/-! ## Hybrid root-level invariants -/

theorem hybridRootStep_eq (s : String)
    (st : List Edge × List String × SMap Nat × List String)
    (pt : String × String) :
    hybridRootStep s st pt =
      if pt.2 ∈ st.2.1 then (st.1 ++ [(s, pt.1, pt.2)], st.2.1, st.2.2.1, st.2.2.2)
      else (st.1 ++ [(s, pt.1, pt.2)], sadd st.2.1 pt.2,
        st.2.2.1.insert pt.2 1, sadd st.2.2.2 pt.2) := rfl

/-- The combined invariant of the hybrid strategy's root-relation loop. -/
theorem hybridRootFold_inv (s : String) :
    ∀ (raw : List (String × String))
      (st : List Edge × List String × SMap Nat × List String),
      (st.2.1 ⊆ (raw.foldl (hybridRootStep s) st).2.1) ∧
      (∀ x ∈ st.2.1,
        (raw.foldl (hybridRootStep s) st).2.2.1.find? x = st.2.2.1.find? x) ∧
      (∀ k, ((st.2.2.1.find? k).isSome : Prop) →
        (((raw.foldl (hybridRootStep s) st).2.2.1.find? k).isSome : Prop)) ∧
      ((raw.foldl (hybridRootStep s) st).1 =
        st.1 ++ raw.map (fun pt => (s, pt.1, pt.2))) ∧
      (∀ x ∈ (raw.foldl (hybridRootStep s) st).2.2.2,
        x ∈ st.2.2.2 ∨ (x ∉ st.2.1 ∧ ∃ pt ∈ raw, x = pt.2)) ∧
      (∀ k v, (raw.foldl (hybridRootStep s) st).2.2.1.find? k = some v →
        st.2.2.1.find? k = some v ∨ v = 1) ∧
      (∀ x ∈ (raw.foldl (hybridRootStep s) st).2.1, x ∈ st.2.1 ∨ ∃ pt ∈ raw, x = pt.2) := by
  intro raw
  induction raw with
  | nil =>
    intro st
    exact ⟨fun x hx => hx, fun x _ => rfl, fun k hk => hk, by simp,
      fun x hx => Or.inl hx, fun k v hkv => Or.inl hkv, fun x hx => Or.inl hx⟩
  | cons pt raw ih =>
    intro st
    simp only [List.foldl_cons]
    rcases ih (hybridRootStep s st pt) with ⟨i1, i2, i3, i4, i5, i6, i7⟩
    have s1 : st.2.1 ⊆ (hybridRootStep s st pt).2.1 := by
      rw [hybridRootStep_eq]
      by_cases hv : pt.2 ∈ st.2.1
      · rw [if_pos hv]; exact fun x hx => hx
      · rw [if_neg hv]; exact subset_sadd _ _
    have s2 : ∀ x ∈ st.2.1,
        (hybridRootStep s st pt).2.2.1.find? x = st.2.2.1.find? x := by
      intro x hx
      rw [hybridRootStep_eq]
      by_cases hv : pt.2 ∈ st.2.1
      · rw [if_pos hv]
      · rw [if_neg hv]
        exact SMap.find?_insert_ne _ _ _ _ (fun hh => hv (hh ▸ hx))
    have s3 : ∀ k, ((st.2.2.1.find? k).isSome : Prop) →
        (((hybridRootStep s st pt).2.2.1.find? k).isSome : Prop) := by
      intro k hk
      rw [hybridRootStep_eq]
      by_cases hv : pt.2 ∈ st.2.1
      · rw [if_pos hv]; exact hk
      · rw [if_neg hv]; exact SMap.isSome_insert _ _ _ _ hk
    have s4 : (hybridRootStep s st pt).1 = st.1 ++ [(s, pt.1, pt.2)] := by
      rw [hybridRootStep_eq]
      by_cases hv : pt.2 ∈ st.2.1
      · rw [if_pos hv]
      · rw [if_neg hv]
    have s5 : ∀ x ∈ (hybridRootStep s st pt).2.2.2,
        x ∈ st.2.2.2 ∨ (x = pt.2 ∧ x ∉ st.2.1) := by
      intro x hx
      rw [hybridRootStep_eq] at hx
      by_cases hv : pt.2 ∈ st.2.1
      · rw [if_pos hv] at hx; exact Or.inl hx
      · rw [if_neg hv] at hx
        rcases mem_sadd.mp hx with rfl | hx
        · exact Or.inr ⟨rfl, hv⟩
        · exact Or.inl hx
    have s6 : ∀ k v, (hybridRootStep s st pt).2.2.1.find? k = some v →
        st.2.2.1.find? k = some v ∨ v = 1 := by
      intro k v hkv
      rw [hybridRootStep_eq] at hkv
      by_cases hv : pt.2 ∈ st.2.1
      · rw [if_pos hv] at hkv; exact Or.inl hkv
      · rw [if_neg hv] at hkv
        rw [SMap.find?_insert] at hkv
        by_cases hk : k = pt.2
        · rw [if_pos hk] at hkv
          exact Or.inr (Option.some_injective _ hkv).symm
        · rw [if_neg hk] at hkv
          exact Or.inl hkv
    have s7 : ∀ x ∈ (hybridRootStep s st pt).2.1, x ∈ st.2.1 ∨ x = pt.2 := by
      intro x hx
      rw [hybridRootStep_eq] at hx
      by_cases hv : pt.2 ∈ st.2.1
      · rw [if_pos hv] at hx; exact Or.inl hx
      · rw [if_neg hv] at hx
        rcases mem_sadd.mp hx with rfl | hx
        · exact Or.inr rfl
        · exact Or.inl hx
    refine ⟨fun x hx => i1 (s1 hx), ?_, fun k hk => i3 k (s3 k hk), ?_, ?_, ?_, ?_⟩
    · intro x hx
      rw [i2 x (s1 hx)]
      exact s2 x hx
    · rw [i4, s4]
      simp
    · intro x hx
      rcases i5 x hx with hx | ⟨hx1, pt', hpt', hx2⟩
      · rcases s5 x hx with hx | ⟨hx1, hx2⟩
        · exact Or.inl hx
        · exact Or.inr ⟨hx2, pt, List.mem_cons_self pt raw, hx1⟩
      · exact Or.inr ⟨fun hh => hx1 (s1 hh), pt', List.mem_cons_of_mem pt hpt', hx2⟩
    · intro k v hkv
      rcases i6 k v hkv with h | h
      · exact s6 k v h
      · exact Or.inr h
    · intro x hx
      rcases i7 x hx with h | ⟨pt', hpt', hx2⟩
      · rcases s7 x h with h | h
        · exact Or.inl h
        · exact Or.inr ⟨pt, List.mem_cons_self pt raw, h⟩
      · exact Or.inr ⟨pt', List.mem_cons_of_mem pt hpt', hx2⟩

theorem hybridRootFold_vis_dm (s : String) :
    ∀ (raw : List (String × String))
      (st : List Edge × List String × SMap Nat × List String),
      (∀ x ∈ st.2.1, ((st.2.2.1.find? x).isSome : Prop)) →
      ∀ x ∈ (raw.foldl (hybridRootStep s) st).2.1,
        (((raw.foldl (hybridRootStep s) st).2.2.1.find? x).isSome : Prop) := by
  intro raw
  induction raw with
  | nil => intro st h x hx; exact h x hx
  | cons pt raw ih =>
    intro st h
    simp only [List.foldl_cons]
    apply ih
    intro x hx
    rw [hybridRootStep_eq] at hx ⊢
    by_cases hv : pt.2 ∈ st.2.1
    · rw [if_pos hv] at hx ⊢
      exact h x hx
    · rw [if_neg hv] at hx ⊢
      rcases mem_sadd.mp hx with rfl | hx
      · exact (SMap.isSome_insert_iff _ _ _ _).mpr (Or.inl rfl)
      · exact SMap.isSome_insert _ _ _ _ (h x hx)

theorem traverse_hybrid_none (rest : Rest) (api : LabelApi) (w : World)
    (s lbl : String) (md : Nat) (cfg : Config) (hrq : rest s = none) :
    traverse_hybrid rest api w s lbl md cfg =
      ⟨[], [s], SMap.empty.insert s 0, SMap.empty.insert s lbl, [s]⟩ := by
  unfold traverse_hybrid
  rw [hrq]

theorem traverse_hybrid_some (rest : Rest) (api : LabelApi) (w : World)
    (s lbl : String) (md : Nat) (cfg : Config) (data : EntityData)
    (hrq : rest s = some data) :
    traverse_hybrid rest api w s lbl md cfg =
      sparqlLoop w cfg (md - 1) 1
        ⟨((parse_entity_relations data cfg.limit_relations).1.foldl
            (hybridRootStep s) ([], [s], SMap.empty.insert s 0, [])).1,
         supdate [s] (parse_entity_relations data cfg.limit_relations).2,
         ((parse_entity_relations data cfg.limit_relations).1.foldl
            (hybridRootStep s) ([], [s], SMap.empty.insert s 0, [])).2.2.1,
         (SMap.empty.insert s lbl).update
           (resolve_labels api (parse_entity_relations data cfg.limit_relations).2),
         ((parse_entity_relations data cfg.limit_relations).1.foldl
            (hybridRootStep s) ([], [s], SMap.empty.insert s 0, [])).2.1⟩
        ((parse_entity_relations data cfg.limit_relations).1.foldl
            (hybridRootStep s) ([], [s], SMap.empty.insert s 0, [])).2.2.2 := by
  unfold traverse_hybrid
  rw [hrq]

/-! ## C1 — depth bounds and the root depth -/

theorem find?_init_dm (s : String) (k : String) (v : Nat)
    (h : (SMap.empty.insert s 0).find? k = some v) : v = 0 := by
  rw [SMap.find?_insert] at h
  by_cases hk : k = s
  · rw [if_pos hk] at h
    exact (Option.some_injective _ h).symm
  · rw [if_neg hk, SMap.find?_empty] at h
    exact absurd h (by simp)

/-- C1 — for max_depth in {1,2,3}, each of the three strategies returns
a depth map in which the start id has depth exactly 0 and every id has
depth at most max_depth. -/
theorem traversal_depth_bounds (rest : Rest) (api : LabelApi) (w : World)
    (cfg : Config) (start_qid start_label : String) (max_depth fuel : Nat)
    (hmd : max_depth = 1 ∨ max_depth = 2 ∨ max_depth = 3) :
    ((traverse rest cfg start_qid start_label max_depth fuel).2.2.find? start_qid
        = some 0 ∧
      ∀ k v, (traverse rest cfg start_qid start_label max_depth fuel).2.2.find? k
        = some v → v ≤ max_depth) ∧
    ((traverse_sparql w start_qid start_label max_depth cfg).depth_map.find? start_qid
        = some 0 ∧
      ∀ k v, (traverse_sparql w start_qid start_label max_depth cfg).depth_map.find? k
        = some v → v ≤ max_depth) ∧
    ((traverse_hybrid rest api w start_qid start_label max_depth cfg).depth_map.find?
        start_qid = some 0 ∧
      ∀ k v, (traverse_hybrid rest api w start_qid start_label max_depth
        cfg).depth_map.find? k = some v → v ≤ max_depth) := by
  have h1 : 1 ≤ max_depth := by rcases hmd with rfl | rfl | rfl <;> omega
  refine ⟨⟨?_, ?_⟩, ⟨?_, ?_⟩, ?_⟩
  · show (restLoop rest cfg max_depth fuel [(start_qid, 0)] [start_qid]
        (SMap.empty.insert start_qid 0) [] [start_qid]).2.2.find? start_qid = some 0
    rw [restLoop_start_pres rest cfg max_depth start_qid fuel _ _ _ _ _
      (List.mem_singleton.mpr rfl)]
    exact SMap.find?_insert_self _ _ _
  · intro k v hv
    refine restLoop_dm_le rest cfg max_depth fuel [(start_qid, 0)] [start_qid]
      (SMap.empty.insert start_qid 0) [] [start_qid] ?_ ?_ k v hv
    · intro p hp
      rcases List.mem_singleton.mp hp with rfl
      omega
    · intro k' v' hv'
      rw [find?_init_dm start_qid k' v' hv']
      omega
  · show (sparqlLoop w cfg max_depth 0 _ [start_qid]).depth_map.find? start_qid = some 0
    rw [(sparqlLoop_start_pres w cfg start_qid max_depth 0 _ [start_qid]
      (List.mem_singleton.mpr rfl)).1]
    exact SMap.find?_insert_self _ _ _
  · intro k v hv
    refine sparqlLoop_dm_le w cfg max_depth max_depth 0 _ [start_qid]
      (by omega) ?_ k v hv
    intro k' v' hv'
    rw [find?_init_dm start_qid k' v' hv']
    omega
  · cases hrq : rest start_qid with
    | none =>
      rw [traverse_hybrid_none rest api w start_qid start_label max_depth cfg hrq]
      refine ⟨SMap.find?_insert_self _ _ _, ?_⟩
      intro k v hv
      rw [find?_init_dm start_qid k v hv]
      omega
    | some data =>
      rw [traverse_hybrid_some rest api w start_qid start_label max_depth cfg data hrq]
      rcases hybridRootFold_inv start_qid
        (parse_entity_relations data cfg.limit_relations).1
        ([], [start_qid], SMap.empty.insert start_qid 0, []) with
        ⟨i1, i2, _, _, _, i6, _⟩
      constructor
      · rw [(sparqlLoop_start_pres w cfg start_qid (max_depth - 1) 1 _ _
          (i1 (List.mem_singleton.mpr rfl))).1]
        rw [i2 start_qid (List.mem_singleton.mpr rfl)]
        exact SMap.find?_insert_self _ _ _
      · intro k v hv
        refine sparqlLoop_dm_le w cfg max_depth (max_depth - 1) 1 _ _
          (by omega) ?_ k v hv
        intro k' v' hv'
        rcases i6 k' v' hv' with h | rfl
        · rw [find?_init_dm start_qid k' v' h]
          omega
        · omega

/-- C1 witness: max_depth 1 with empty oracles. -/
theorem traversal_depth_bounds_witness :
    ((traverse (fun _ => none) ⟨20, 5, 0, 50⟩ "Q1" "one" 1 2).2.2.find? "Q1"
        = some 0 ∧
      ∀ k v, (traverse (fun _ => none) ⟨20, 5, 0, 50⟩ "Q1" "one" 1 2).2.2.find? k
        = some v → v ≤ 1) ∧
    ((traverse_sparql (fun _ => none) "Q1" "one" 1 ⟨20, 5, 0, 50⟩).depth_map.find? "Q1"
        = some 0 ∧
      ∀ k v, (traverse_sparql (fun _ => none) "Q1" "one" 1
        ⟨20, 5, 0, 50⟩).depth_map.find? k = some v → v ≤ 1) ∧
    ((traverse_hybrid (fun _ => none) (fun _ => none) (fun _ => none) "Q1" "one" 1
        ⟨20, 5, 0, 50⟩).depth_map.find? "Q1" = some 0 ∧
      ∀ k v, (traverse_hybrid (fun _ => none) (fun _ => none) (fun _ => none) "Q1"
        "one" 1 ⟨20, 5, 0, 50⟩).depth_map.find? k = some v → v ≤ 1) :=
  traversal_depth_bounds (fun _ => none) (fun _ => none) (fun _ => none)
    ⟨20, 5, 0, 50⟩ "Q1" "one" 1 2 (Or.inl rfl)

/-! ## C10 — every edge component is in all_ids -/

/-- C10 — in every strategy, each component (source, property, target)
of every returned edge is a member of the returned all_ids set, so label
resolution over all_ids covers every id in the exported triples. (For
the SPARQL-backed strategies this relies on the query's `VALUES` clause
confining row sources to the queried frontier, `WorldWF`.) -/
theorem traversal_all_ids_cover (rest : Rest) (api : LabelApi) (w : World)
    (cfg : Config) (start_qid start_label : String) (max_depth fuel : Nat)
    (hWF : WorldWF w) :
    (∀ e ∈ (traverse rest cfg start_qid start_label max_depth fuel).1,
      e.1 ∈ (traverse rest cfg start_qid start_label max_depth fuel).2.1 ∧
      e.2.1 ∈ (traverse rest cfg start_qid start_label max_depth fuel).2.1 ∧
      e.2.2 ∈ (traverse rest cfg start_qid start_label max_depth fuel).2.1) ∧
    (∀ e ∈ (traverse_sparql w start_qid start_label max_depth cfg).edges,
      e.1 ∈ (traverse_sparql w start_qid start_label max_depth cfg).all_ids ∧
      e.2.1 ∈ (traverse_sparql w start_qid start_label max_depth cfg).all_ids ∧
      e.2.2 ∈ (traverse_sparql w start_qid start_label max_depth cfg).all_ids) ∧
    (∀ e ∈ (traverse_hybrid rest api w start_qid start_label max_depth cfg).edges,
      e.1 ∈ (traverse_hybrid rest api w start_qid start_label max_depth cfg).all_ids ∧
      e.2.1 ∈ (traverse_hybrid rest api w start_qid start_label max_depth cfg).all_ids ∧
      e.2.2 ∈ (traverse_hybrid rest api w start_qid start_label max_depth
        cfg).all_ids) := by
  refine ⟨?_, ?_, ?_⟩
  · exact restLoop_all_ids rest cfg max_depth fuel [(start_qid, 0)] [start_qid]
      (SMap.empty.insert start_qid 0) [] [start_qid]
      (fun e he => absurd he (List.not_mem_nil e))
      (fun p hp => by rcases List.mem_singleton.mp hp with rfl; exact
        List.mem_singleton.mpr rfl)
  · exact sparqlLoop_all_ids w cfg hWF max_depth 0 _ [start_qid]
      (fun e he => absurd he (List.not_mem_nil e))
      (fun x hx => by rcases List.mem_singleton.mp hx with rfl; exact
        List.mem_singleton.mpr rfl)
  · cases hrq : rest start_qid with
    | none =>
      rw [traverse_hybrid_none rest api w start_qid start_label max_depth cfg hrq]
      exact fun e he => absurd he (List.not_mem_nil e)
    | some data =>
      rw [traverse_hybrid_some rest api w start_qid start_label max_depth cfg data hrq]
      rcases hybridRootFold_inv start_qid
        (parse_entity_relations data cfg.limit_relations).1
        ([], [start_qid], SMap.empty.insert start_qid 0, []) with
        ⟨_, _, _, i4, i5, _, _⟩
      apply sparqlLoop_all_ids w cfg hWF (max_depth - 1) 1 _ _ ?_ ?_
      · rw [i4]
        intro e' he'
        rcases List.mem_append.mp he' with h | h
        · exact absurd h (List.not_mem_nil e')
        · rcases List.mem_map.mp h with ⟨pt, hpt, rfl⟩
          rcases parse_entity_relations_ids data _ pt hpt with ⟨hp1, hp2⟩
          exact ⟨subset_supdate _ _ (List.mem_singleton.mpr rfl),
            mem_supdate.mpr (Or.inr hp1), mem_supdate.mpr (Or.inr hp2)⟩
      · intro x hx
        rcases i5 x hx with h | ⟨_, pt, hpt, rfl⟩
        · exact absurd h (List.not_mem_nil x)
        · exact mem_supdate.mpr
            (Or.inr (parse_entity_relations_ids data _ pt hpt).2)

/-- C10 witness: a one-level world with a well-formed source confinement. -/
theorem traversal_all_ids_cover_witness :
    (∀ e ∈ (traverse (fun _ => none) ⟨20, 5, 0, 50⟩ "Q1" "one" 2 2).1,
      e.1 ∈ (traverse (fun _ => none) ⟨20, 5, 0, 50⟩ "Q1" "one" 2 2).2.1 ∧
      e.2.1 ∈ (traverse (fun _ => none) ⟨20, 5, 0, 50⟩ "Q1" "one" 2 2).2.1 ∧
      e.2.2 ∈ (traverse (fun _ => none) ⟨20, 5, 0, 50⟩ "Q1" "one" 2 2).2.1) ∧
    (∀ e ∈ (traverse_sparql (fun _ => none) "Q1" "one" 2 ⟨20, 5, 0, 50⟩).edges,
      e.1 ∈ (traverse_sparql (fun _ => none) "Q1" "one" 2 ⟨20, 5, 0, 50⟩).all_ids ∧
      e.2.1 ∈ (traverse_sparql (fun _ => none) "Q1" "one" 2 ⟨20, 5, 0, 50⟩).all_ids ∧
      e.2.2 ∈ (traverse_sparql (fun _ => none) "Q1" "one" 2 ⟨20, 5, 0, 50⟩).all_ids) ∧
    (∀ e ∈ (traverse_hybrid (fun _ => none) (fun _ => none) (fun _ => none) "Q1"
        "one" 2 ⟨20, 5, 0, 50⟩).edges,
      e.1 ∈ (traverse_hybrid (fun _ => none) (fun _ => none) (fun _ => none) "Q1"
        "one" 2 ⟨20, 5, 0, 50⟩).all_ids ∧
      e.2.1 ∈ (traverse_hybrid (fun _ => none) (fun _ => none) (fun _ => none) "Q1"
        "one" 2 ⟨20, 5, 0, 50⟩).all_ids ∧
      e.2.2 ∈ (traverse_hybrid (fun _ => none) (fun _ => none) (fun _ => none) "Q1"
        "one" 2 ⟨20, 5, 0, 50⟩).all_ids) :=
  traversal_all_ids_cover (fun _ => none) (fun _ => none) (fun _ => none)
    ⟨20, 5, 0, 50⟩ "Q1" "one" 2 2
    (fun _ _ h => by exact absurd h (by simp))

/-! ## C2 — hub suppression -/

/-- The edges contributed by the root's own fetch in the per-node
strategy (the only pop at depth 0). -/
def rootEdges (rest : Rest) (cfg : Config) (s : String) : List Edge :=
  match rest s with
  | none => []
  | some data =>
    (parse_entity_relations data cfg.limit_relations).1.map
      (fun pt => (s, pt.1, pt.2))

theorem restLoop_nil_any (rest : Rest) (cfg : Config) (md fuel : Nat)
    (vis : List String) (dm : SMap Nat) (edges : List Edge) (ids : List String) :
    restLoop rest cfg md fuel [] vis dm edges ids = (edges, ids, dm) := by
  cases fuel <;> rfl

/-- C2 — with a nonzero hub threshold: a node the popularity oracle
consistently reports at or above the threshold (i) contributes no
outgoing edge at all unless it is the start (in the per-node strategy it
is skipped whenever popped at depth > 0; in the batched strategy it is
never placed in a frontier), (ii) even the start acts as a source only
in its own level-0 fetch, so no node is ever the source of an edge
discovered after its own discovery level, and (iii) hub suppression
removes nothing already recorded: every returned edge (in particular
every incoming edge of a hub) is kept, and its target has a depth-map
entry. Both the per-node and the batched strategy are covered. -/
theorem hub_suppression (rest : Rest) (w : World) (cfg : Config)
    (start_qid start_label t : String) (max_depth fuel : Nat)
    (hthr : 0 < cfg.max_entity_sitelinks)
    (hhubR : HubbyRest rest cfg.max_entity_sitelinks t)
    (hWF : WorldWF w) (hhubS : HubbySparql w cfg.max_entity_sitelinks t) :
    ((t ≠ start_qid →
      ∀ e ∈ (traverse rest cfg start_qid start_label max_depth fuel).1, e.1 ≠ t) ∧
     (∀ e ∈ (traverse rest cfg start_qid start_label max_depth fuel).1,
       e.1 = start_qid → e ∈ rootEdges rest cfg start_qid) ∧
     (∀ e ∈ (traverse rest cfg start_qid start_label max_depth fuel).1,
       (((traverse rest cfg start_qid start_label max_depth fuel).2.2.find?
         e.2.2).isSome : Prop))) ∧
    ((t ≠ start_qid →
      ∀ e ∈ (traverse_sparql w start_qid start_label max_depth cfg).edges, e.1 ≠ t) ∧
     (∀ e ∈ (traverse_sparql w start_qid start_label max_depth cfg).edges,
       e.1 = start_qid →
       e ∈ (sparql_fetch_level w [start_qid] cfg.limit_relations).edges) ∧
     (∀ e ∈ (traverse_sparql w start_qid start_label max_depth cfg).edges,
       (((traverse_sparql w start_qid start_label max_depth cfg).depth_map.find?
         e.2.2).isSome : Prop))) := by
  refine ⟨⟨?_, ?_, ?_⟩, ⟨?_, ?_, ?_⟩⟩
  · intro hts
    apply restLoop_no_hub_src rest cfg max_depth t hthr hhubR fuel
      [(start_qid, 0)] [start_qid] (SMap.empty.insert start_qid 0) [] [start_qid]
      ?_ (fun e he => absurd he (List.not_mem_nil e))
    intro p hp hpt
    rcases List.mem_singleton.mp hp with rfl
    exact absurd hpt.symm hts
  · cases fuel with
    | zero =>
      intro e he
      exact absurd he (List.not_mem_nil e)
    | succ fuel =>
      cases hrq : rest start_qid with
      | none =>
        show ∀ e ∈ (restLoop rest cfg max_depth (fuel + 1) [(start_qid, 0)]
          [start_qid] (SMap.empty.insert start_qid 0) [] [start_qid]).1, _
        rw [restLoop_cons_none hrq, restLoop_nil_any]
        intro e he
        exact absurd he (List.not_mem_nil e)
      | some data =>
        have hcond : ¬(0 < cfg.max_entity_sitelinks ∧ 0 < 0 ∧
            cfg.max_entity_sitelinks ≤ (data.sitelinksCount : Int)) := by
          intro h
          exact absurd h.2.1 (by omega)
        show ∀ e ∈ (restLoop rest cfg max_depth (fuel + 1) [(start_qid, 0)]
          [start_qid] (SMap.empty.insert start_qid 0) [] [start_qid]).1, _
        rw [restLoop_cons_expand hrq hcond]
        rcases restInnerFold_inv max_depth start_qid 0
          (parse_entity_relations data
            (if 0 = 0 then cfg.limit_relations else cfg.limit_relations_deep)).1
          ([], [start_qid], SMap.empty.insert start_qid 0, []) with
          ⟨i1, _, _, i4, i5, _, _⟩
        intro e he hes
        have hstable := restLoop_src_stable rest cfg max_depth start_qid fuel _ _ _ _ _
          (i1 (List.mem_singleton.mpr rfl)) ?_ e he
        · rcases hstable with h | h
          · rw [i4, List.nil_append] at h
            rcases List.mem_map.mp h with ⟨pt, hpt, rfl⟩
            unfold rootEdges
            rw [hrq]
            exact List.mem_map.mpr ⟨pt, hpt, rfl⟩
          · exact absurd hes h
        · intro p hp
          rcases List.mem_append.mp hp with hp | hp
          · exact absurd hp (List.not_mem_nil p)
          · rcases i5 p hp with hp | ⟨_, _, h3, _⟩
            · exact absurd hp (List.not_mem_nil p)
            · intro hps
              exact h3 (hps ▸ List.mem_singleton.mpr rfl)
  · exact restLoop_tgt_dm rest cfg max_depth fuel [(start_qid, 0)] [start_qid]
      (SMap.empty.insert start_qid 0) [] [start_qid]
      (fun x hx => by
        rcases List.mem_singleton.mp hx with rfl
        rw [SMap.find?_insert_self]; rfl)
      (fun e he => absurd he (List.not_mem_nil e))
  · intro hts
    apply sparqlLoop_no_hub_src w cfg hWF t hhubS hthr max_depth 0 _ [start_qid]
      ?_ (fun e he => absurd he (List.not_mem_nil e))
    intro hx
    rcases List.mem_singleton.mp hx with rfl
    exact hts rfl
  · cases max_depth with
    | zero =>
      intro e he
      exact absurd he (List.not_mem_nil e)
    | succ md =>
      show ∀ e ∈ (sparqlLoop w cfg (md + 1) 0 _ [start_qid]).edges, _
      rw [sparqlLoop_succ, if_neg (by simp : ¬([start_qid] = ([] : List String)))]
      rcases hubFold_inv cfg.max_entity_sitelinks 0
          (sparql_fetch_level w [start_qid] (if 0 = 0 then cfg.limit_relations
            else cfg.limit_relations_deep)).sitelinks_map
          (sparql_fetch_level w [start_qid] (if 0 = 0 then cfg.limit_relations
            else cfg.limit_relations_deep)).new_targets
          [start_qid] (SMap.empty.insert start_qid 0) [] with ⟨i1, _, _, _, i5, _⟩
      intro e he hes
      have hstable := sparqlLoop_src_stable w cfg hWF start_qid md 1 _ _
        (i1 (List.mem_singleton.mpr rfl)) ?_ e he
      · rcases hstable with h | h
        · rw [List.nil_append] at h
          exact h
        · exact absurd hes h
      · intro hx
        rcases i5 start_qid hx with h | ⟨_, h⟩
        · exact absurd h (List.not_mem_nil start_qid)
        · exact h (List.mem_singleton.mpr rfl)
  · exact sparqlLoop_tgt_dm w cfg max_depth 0 _ [start_qid]
      (fun x hx => by
        rcases List.mem_singleton.mp hx with rfl
        rw [SMap.find?_insert_self]; rfl)
      (fun e he => absurd he (List.not_mem_nil e))
      (fun x hx => hx)

/-- C2 witness: empty oracles, threshold 100, a hub id distinct from the
start. -/
theorem hub_suppression_witness :
    ((("Q9" : String) ≠ "Q1" →
      ∀ e ∈ (traverse (fun _ => none) ⟨20, 5, 100, 50⟩ "Q1" "one" 2 3).1, e.1 ≠ "Q9") ∧
     (∀ e ∈ (traverse (fun _ => none) ⟨20, 5, 100, 50⟩ "Q1" "one" 2 3).1,
       e.1 = "Q1" → e ∈ rootEdges (fun _ => none) ⟨20, 5, 100, 50⟩ "Q1") ∧
     (∀ e ∈ (traverse (fun _ => none) ⟨20, 5, 100, 50⟩ "Q1" "one" 2 3).1,
       ((((traverse (fun _ => none) ⟨20, 5, 100, 50⟩ "Q1" "one" 2 3).2.2.find?
         e.2.2).isSome : Prop)))) ∧
    ((("Q9" : String) ≠ "Q1" →
      ∀ e ∈ (traverse_sparql (fun _ => none) "Q1" "one" 2 ⟨20, 5, 100, 50⟩).edges,
        e.1 ≠ "Q9") ∧
     (∀ e ∈ (traverse_sparql (fun _ => none) "Q1" "one" 2 ⟨20, 5, 100, 50⟩).edges,
       e.1 = "Q1" →
       e ∈ (sparql_fetch_level (fun _ => none) ["Q1"] 20).edges) ∧
     (∀ e ∈ (traverse_sparql (fun _ => none) "Q1" "one" 2 ⟨20, 5, 100, 50⟩).edges,
       (((traverse_sparql (fun _ => none) "Q1" "one" 2
         ⟨20, 5, 100, 50⟩).depth_map.find? e.2.2).isSome : Prop))) :=
  hub_suppression (fun _ => none) (fun _ => none) ⟨20, 5, 100, 50⟩ "Q1" "one" "Q9" 2 3
    (by norm_num)
    (fun data h => by exact absurd h (by simp))
    (fun _ _ h => by exact absurd h (by simp))
    (fun _ _ _ h => by exact absurd h (by simp))

end WikidataExplorer
